import Mathlib

/-!
Verification of the nimbus HTTP router's radix tree, middleware chain and
recovery middleware against their natural-language specification.

The radix tree (`nodeType`, `node`, `tree.insert`, `node.insert`,
`tree.search`, `node.search`, `longestCommonPrefix`) is embedded from the
Go source.  Go strings are modelled as `List Char`; the mutating Go
functions are modelled by explicit state passing (the updated node is the
return value); `nil`/panic outcomes are modelled with `Option`.  Route
handlers are identified by opaque `Nat` ids.  The `label` field of a Go
node is written by `insert` but never read by any function in the source,
so it is omitted from the model.  Recursion of `node.insert`/`node.search`
is driven by an explicit fuel argument; the path argument strictly shrinks
in every recursive call of the Go code, so a fuel of `path.length + 1`
is always sufficient and the wrappers supply it.
-/

/-- Go strings viewed as lists of characters. -/
abbrev Str := List Char

/-- Convert a Lean string literal to the `Str` model. -/
def s2l (s : String) : Str := s.data

/-- `longestCommonPrefix` from the source: length of the longest common
byte prefix of two strings. -/
def longestCommonPfx : Str → Str → Nat
  | a :: as, b :: bs => if a = b then longestCommonPfx as bs + 1 else 0
  | _, _ => 0

/-- `strings.TrimPrefix(path, "/")`: drop a single leading slash. -/
def trimSlash : Str → Str
  | '/' :: rest => rest
  | p => p

/-- `nodeType` from the source. -/
inductive NType where
  | nstatic
  | nparam
  | nwildcard
deriving DecidableEq, Repr

/-- `node` from the source: node kind, prefix string, parameter name,
optional route (identified by a `Nat` id), static children and the single
parameter child.  (The write-only `label` byte is omitted.) -/
inductive Node where
  | node (nType : NType) (pfx : Str) (paramKey : Str) (route : Option Nat)
      (children : List Node) (paramChild : Option Node)
deriving Repr

def Node.nType : Node → NType
  | .node t _ _ _ _ _ => t

def Node.pfx : Node → Str
  | .node _ p _ _ _ _ => p

def Node.paramKey : Node → Str
  | .node _ _ k _ _ _ => k

def Node.route : Node → Option Nat
  | .node _ _ _ r _ _ => r

def Node.children : Node → List Node
  | .node _ _ _ _ cs _ => cs

def Node.paramChild : Node → Option Node
  | .node _ _ _ _ _ pc => pc

def Node.setRoute (n : Node) (r : Nat) : Node :=
  match n with
  | .node t p k _ cs pc => .node t p k (some r) cs pc

def Node.setPfx (n : Node) (p : Str) : Node :=
  match n with
  | .node t _ k r cs pc => .node t p k r cs pc

def Node.setChildren (n : Node) (cs : List Node) : Node :=
  match n with
  | .node t p k r _ pc => .node t p k r cs pc

def Node.setParamChild (n : Node) (pc : Node) : Node :=
  match n with
  | .node t p k r cs _ => .node t p k r cs (some pc)

/-- The root node built by `newTree` in the source. -/
def emptyRoot : Node := .node .nstatic [] [] none [] none

/-- The static-children loop of `node.insert` (source lines 132-202).
`ins` is the recursive insertion at the next fuel level.  The outer
`Option` is `none` when the Go code would panic; the inner `Option` is
`none` when no existing child shares a prefix with the segment (the Go
loop falls through). -/
def goChildren (ins : Node → Str → Option Node) :
    List Node → Str → Str → Nat → Option (Option (List Node))
  | [], _, _, _ => some none
  | c :: cs, seg, rem, r =>
    if c.nType ≠ .nstatic then
      (goChildren ins cs seg rem r).map (Option.map (c :: ·))
    else
      let k := longestCommonPfx seg c.pfx
      if k = 0 then
        (goChildren ins cs seg rem r).map (Option.map (c :: ·))
      else if k = c.pfx.length then
        if k = seg.length then
          if rem = [] then some (some (c.setRoute r :: cs))
          else (ins c rem).map (fun c' => some (c' :: cs))
        else
          (ins c ('/' :: seg.drop k ++ rem)).map (fun c' => some (c' :: cs))
      else
        let moved := c.setPfx (c.pfx.drop k)
        let splitN : Node := .node .nstatic (seg.take k) [] none [moved] none
        if k = seg.length then
          if rem = [] then some (some (splitN.setRoute r :: cs))
          else (ins splitN rem).map (fun s' => some (s' :: cs))
        else
          (ins splitN ('/' :: seg.drop k ++ rem)).map (fun s' => some (s' :: cs))

/-- `node.insert` from the source, with fuel.  Returns `none` when the Go
code would panic (empty path segment reaching `segment[0]`) or when fuel
runs out (which cannot happen for the wrapper's fuel). -/
def nodeInsert : Nat → Node → Str → Nat → Option Node
  | 0, _, _, _ => none
  | fuel + 1, n, path, r =>
    if path = ['/'] then some (n.setRoute r)
    else
      let p := trimSlash path
      let seg := p.takeWhile (· ≠ '/')
      let rem := p.dropWhile (· ≠ '/')
      if seg.head? = some ':' then
        let pc := match n.paramChild with
          | some pc => pc
          | none => .node .nparam seg (seg.drop 1) none [] none
        if rem = [] then some (n.setParamChild (pc.setRoute r))
        else (nodeInsert fuel pc rem r).map n.setParamChild
      else
        match goChildren (fun c q => nodeInsert fuel c q r) n.children seg rem r with
        | none => none
        | some (some cs') => some (n.setChildren cs')
        | some none =>
          if seg = [] then none
          else
            let newC : Node := .node .nstatic seg [] none [] none
            if rem = [] then
              some (n.setChildren (n.children ++ [newC.setRoute r]))
            else
              (nodeInsert fuel newC rem r).map
                (fun c' => n.setChildren (n.children ++ [c']))

/-- `tree.insert` from the source: normalize the path, then insert at the
root. -/
def treeInsert (root : Node) (path : Str) (r : Nat) : Option Node :=
  let p := if path = [] then ['/'] else path
  let p := if p.head? = some '/' then p else '/' :: p
  nodeInsert (p.length + 1) root p r

/-- The lazily allocated parameter map (`map[string]string`), `none` while
unallocated. -/
abbrev PMap := Option (List (Str × Str))

/-- Go map assignment `m[k] = v`: overwrite an existing key, else append. -/
def upsert : List (Str × Str) → Str → Str → List (Str × Str)
  | [], k, v => [(k, v)]
  | (k', v') :: rest, k, v =>
    if k' = k then (k', v) :: rest else (k', v') :: upsert rest k v

/-- `(*params)[key] = segment` with lazy allocation of the map. -/
def pmInsert (pm : PMap) (k v : Str) : PMap :=
  match pm with
  | none => some [(k, v)]
  | some l => some (upsert l k v)

/-- The static-children loop of `node.search` (source lines 262-281).
Returns `none` when no static child's prefix matches the segment (the Go
loop falls through to the parameter child); otherwise the search commits
to the first matching static child. -/
def tryStatic (go : Node → Str → PMap → Option Nat × PMap) :
    List Node → Str → Str → PMap → Option (Option Nat × PMap)
  | [], _, _, _ => none
  | c :: cs, seg, rem, pm =>
    if c.nType = .nstatic ∧ c.pfx.isPrefixOf seg then
      some (if seg.length = c.pfx.length then
              (if rem = [] then (c.route, pm) else go c rem pm)
            else go c ('/' :: seg.drop c.pfx.length ++ rem) pm)
    else tryStatic go cs seg rem pm

/-- `node.search` from the source, with fuel.  The parameter map is
threaded through exactly as the Go pointer argument is. -/
def nodeSearch : Nat → Node → Str → PMap → Option Nat × PMap
  | 0, _, _, pm => (none, pm)
  | fuel + 1, n, path, pm =>
    if path = ['/'] ∨ path = [] then (n.route, pm)
    else
      let p := trimSlash path
      let seg := p.takeWhile (· ≠ '/')
      let rem := p.dropWhile (· ≠ '/')
      match tryStatic (nodeSearch fuel) n.children seg rem pm with
      | some res => res
      | none =>
        match n.paramChild with
        | some pc =>
          let pm' := pmInsert pm pc.paramKey seg
          if rem = [] then (pc.route, pm') else nodeSearch fuel pc rem pm'
        | none => (none, pm)

/-- `tree.search` from the source: normalize the empty path, search with a
fresh (unallocated) parameter map, and return `(nil, nil)` on a miss. -/
def treeSearch (root : Node) (path : Str) : Option Nat × PMap :=
  let p := if path = [] then ['/'] else path
  let res := nodeSearch (p.length + 1) root p none
  match res.1 with
  | none => (none, none)
  | some r => (some r, res.2)

/-- Fold a list of `(pattern, route)` registrations over a tree via
`tree.insert`, starting from `newTree`'s root. -/
def insertAll (n : Node) : List (Str × Nat) → Option Node
  | [] => some n
  | (p, r) :: rest => (treeInsert n p r).bind (fun n' => insertAll n' rest)

/-- Build a tree from registrations and search it: the observable
behaviour a claim about registered routes talks about. -/
def searchBuilt (l : List (Str × Nat)) (p : Str) : Option (Option Nat × PMap) :=
  (insertAll emptyRoot l).map (fun t => treeSearch t p)

/-!
## Middleware model

`HandlerFunc` is the handler signature `func(*Context) (any, int, error)`.
A call of a Go handler either returns its triple or panics with some
value; contexts, payloads and panic values are opaque `Nat`s, and the
`error` result is either an `*APIError` (from response.go) or some other
error value.
-/

/-- `APIError` from response.go. -/
structure APIErrorM where
  code : Str
  message : Str
deriving DecidableEq, Repr

/-- `NewAPIError` from response.go. -/
def NewAPIError (code message : Str) : APIErrorM := ⟨code, message⟩

/-- A Go `error` result: an `*APIError` or some other error value. -/
inductive GoErr where
  | api (e : APIErrorM)
  | other (tag : Nat)
deriving DecidableEq, Repr

/-- The `(data any, statusCode int, err error)` result triple. -/
structure Triple where
  data : Option Nat
  status : Int
  err : Option GoErr
deriving DecidableEq, Repr

/-- Outcome of calling a handler: a normal return or a panic. -/
inductive HOut where
  | ret (t : Triple)
  | fault (v : Nat)
deriving DecidableEq, Repr

/-- `HandlerFunc` / `Handler` from the source. -/
def HandlerFunc := Nat → HOut

/-- `MiddlewareFunc` / `Middleware` from the source. -/
def MiddlewareFunc := HandlerFunc → HandlerFunc

/-- The loop of `Chain`: `for i := len-1; i >= 0; i--: handler = m[i](handler)`,
expressed as processing the reversed list front to back. -/
def chainLoop : List MiddlewareFunc → HandlerFunc → HandlerFunc
  | [], h => h
  | m :: ms, h => chainLoop ms (m h)

/-- `Chain` from the source. -/
def Chain (ms : List MiddlewareFunc) : MiddlewareFunc :=
  fun h => chainLoop ms.reverse h

/-- The triple `Recovery` substitutes after catching a panic:
`(nil, http.StatusInternalServerError, NewAPIError("internal_server_error", ...))`. -/
def recoveryTriple : Triple :=
  ⟨none, 500, some (.api (NewAPIError (s2l "internal_server_error")
    (s2l "An unexpected error occurred")))⟩

/-- `Recovery` from middleware/recovery.go: the deferred `recover` leaves a
normal return untouched and replaces a panic by `recoveryTriple` (the log
write has no observable effect on the result). -/
def Recovery : MiddlewareFunc := fun next ctx =>
  match next ctx with
  | .ret t => .ret t
  | .fault _ => .ret recoveryTriple

/-- A handler that returns its triple normally (used as a witness input). -/
def retHandler (t : Triple) : HandlerFunc := fun _ => .ret t

/-- A handler that always panics (used as a witness input). -/
def faultHandler (v : Nat) : HandlerFunc := fun _ => .fault v

mutual

/-- The static skeleton of a tree: every parameter child removed,
recursively.  A route resolvable in `stripParams t` is exactly one
reachable through static segments alone, i.e. a static route that matches
the path. -/
def stripParams : Node → Node
  | .node t px pk rt cs _ => .node t px pk rt (stripList cs) none

/-- `stripParams` mapped over a list of children. -/
def stripList : List Node → List Node
  | [] => []
  | c :: cs => stripParams c :: stripList cs

end

/-- The intermediate node `node.insert` creates when splitting an existing
child `c` on the common prefix of length `k` with the inserted segment. -/
def splitOf (c : Node) (seg : Str) (k : Nat) : Node :=
  .node .nstatic (seg.take k) [] none [c.setPfx (c.pfx.drop k)] none

/-- The six ways the static-children loop of `node.insert` can turn the
first prefix-sharing child `c` into `c'` (`k` is the common prefix
length): exact match setting or recursing, segment extending beyond the
child's prefix, or a split with the three analogous continuations. -/
def handled (ins : Node → Str → Option Node) (seg rem : Str) (r : Nat)
    (c c' : Node) : Prop :=
  let k := longestCommonPfx seg c.pfx
  (k = c.pfx.length ∧ k = seg.length ∧ rem = [] ∧ c' = c.setRoute r) ∨
  (k = c.pfx.length ∧ k = seg.length ∧ rem ≠ [] ∧ ins c rem = some c') ∨
  (k = c.pfx.length ∧ k ≠ seg.length ∧
    ins c ('/' :: seg.drop k ++ rem) = some c') ∨
  (k ≠ c.pfx.length ∧ k = seg.length ∧ rem = [] ∧
    c' = (splitOf c seg k).setRoute r) ∨
  (k ≠ c.pfx.length ∧ k = seg.length ∧ rem ≠ [] ∧
    ins (splitOf c seg k) rem = some c') ∨
  (k ≠ c.pfx.length ∧ k ≠ seg.length ∧
    ins (splitOf c seg k) ('/' :: seg.drop k ++ rem) = some c')

/-- Structural invariant of every tree built by `insert` from the empty
tree: each static child has a nonempty prefix, sibling static children
have pairwise distinct first bytes, and the same holds recursively below
every child and parameter child. -/
inductive InvB : Node → Prop
  | mk (t : NType) (px pk : Str) (rt : Option Nat) (cs : List Node)
      (pc : Option Node)
      (hne : ∀ c ∈ cs, c.nType = NType.nstatic → c.pfx ≠ [])
      (hdis : cs.Pairwise (fun a b => a.nType = NType.nstatic →
        b.nType = NType.nstatic → a.pfx.head? ≠ b.pfx.head?))
      (hcs : ∀ c ∈ cs, InvB c)
      (hpc : ∀ c, pc = some c → InvB c) :
      InvB (.node t px pk rt cs pc)

/-- The claim's invariant, exactly as stated: the static children of
every node reachable in the tree have pairwise distinct first bytes. -/
inductive Dfb : Node → Prop
  | mk (t : NType) (px pk : Str) (rt : Option Nat) (cs : List Node)
      (pc : Option Node)
      (hdis : cs.Pairwise (fun a b => a.nType = NType.nstatic →
        b.nType = NType.nstatic → a.pfx.head? ≠ b.pfx.head?))
      (hcs : ∀ c ∈ cs, Dfb c)
      (hpc : ∀ c, pc = some c → Dfb c) :
      Dfb (.node t px pk rt cs pc)

/-- A clean pattern segment: either a parameter segment (leading `:`) or
a literal containing no `:` at all.  Literals with an embedded `:` make
`node.insert` silently turn the split remainder into a parameter segment,
which the fallback/priority claims do not survive. -/
def SegOK (s : Str) : Prop := s.head? = some ':' ∨ ':' ∉ s

/-- Clean router patterns, as seen by `node.insert`: a leading slash, then
nonempty `/`-free segments each of which is `SegOK`. -/
inductive CleanP : Str → Prop
  | root : CleanP ['/']
  | last (s : Str) : s ≠ [] → '/' ∉ s → SegOK s → CleanP ('/' :: s)
  | seg (s rest : Str) : s ≠ [] → '/' ∉ s → SegOK s →
      rest.head? = some '/' → CleanP rest → CleanP ('/' :: s ++ rest)

/-- Structural invariant of trees built from clean patterns: `InvB`
strengthened with `: `-freeness of every static prefix, so a static child
can never shadow a parameter segment of a search path. -/
inductive InvC : Node → Prop
  | mk (t : NType) (px pk : Str) (rt : Option Nat) (cs : List Node)
      (pc : Option Node)
      (hne : ∀ c ∈ cs, c.nType = NType.nstatic → c.pfx ≠ [] ∧ ':' ∉ c.pfx)
      (hdis : cs.Pairwise (fun a b => a.nType = NType.nstatic →
        b.nType = NType.nstatic → a.pfx.head? ≠ b.pfx.head?))
      (hcs : ∀ c ∈ cs, InvC c)
      (hpc : ∀ c, pc = some c → InvC c) :
      InvC (.node t px pk rt cs pc)

/-- The tree holding `/users/:id ↦ 1` and `/users/me ↦ 2` (witness input). -/
def usersTree : Node :=
  (insertAll emptyRoot [(s2l "/users/:id", 1), (s2l "/users/me", 2)]).getD emptyRoot

/-- The tree holding the single static route `/static ↦ 5` (witness input). -/
def staticTree : Node :=
  (insertAll emptyRoot [(s2l "/static", 5)]).getD emptyRoot

/-!
## Heap model for the copy-on-write insertion (claim C1)

The repository's routing-table builder derives a new tree with
`tree.insertWithCopy`/`node.insertWithCopy` (quoted in ARCHITECTURE.md);
that source file is not under src/, so the insertion is modelled from the
spec.  To make "no node reachable from the old root is mutated in place"
expressible, nodes live in an explicit heap addressed by `Nat`; mutation
would be writing an existing cell, and copy-on-write only ever allocates
(appends) fresh cells.
-/

/-- A tree node in the explicit-heap model: children and the parameter
child are heap addresses. -/
structure HNode where
  nTypeH : NType
  pfxH : Str
  paramKeyH : Str
  routeH : Option Nat
  childrenH : List Nat
  paramChildH : Option Nat
deriving DecidableEq, Repr

/-- The heap: nodes addressed by their index.  Allocation appends; no
operation below ever writes an existing cell. -/
abbrev Heap := List HNode

/-- Allocate a fresh node: extend the heap, return the new address. -/
def alloc (H : Heap) (nd : HNode) : Heap × Nat := (H ++ [nd], H.length)

/-- Heap well-formedness: every stored address points into the heap. -/
def wfH (H : Heap) : Prop :=
  ∀ nd ∈ H, (∀ cA ∈ nd.childrenH, cA < H.length) ∧
    (∀ pcA, nd.paramChildH = some pcA → pcA < H.length)

/-- Modelled from the spec: the static-children walk of the repository's
copy-on-write insertion (`node.insertWithCopy`, not under src/).  The
first child sharing a prefix with the segment is replaced — in a fresh
cell — by the same three cases as `node.insert` (exact match, descend,
split); every other child keeps its address, sharing the untouched
subtree with the old tree. -/
def goKidsWC (ins : Heap → Nat → Str → Nat → Heap × Nat) (H : Heap) :
    List Nat → Str → Str → Nat → Heap × Option (List Nat)
  | [], _, _, _ => (H, none)
  | cA :: cs, seg, rem, r =>
    match H[cA]? with
    | none =>
      let z := goKidsWC ins H cs seg rem r
      (z.1, z.2.map (cA :: ·))
    | some c =>
      if c.nTypeH ≠ .nstatic then
        let z := goKidsWC ins H cs seg rem r
        (z.1, z.2.map (cA :: ·))
      else
        let k := longestCommonPfx seg c.pfxH
        if k = 0 then
          let z := goKidsWC ins H cs seg rem r
          (z.1, z.2.map (cA :: ·))
        else if k = c.pfxH.length then
          if k = seg.length then
            if rem = [] then
              let z := alloc H { c with routeH := some r }
              (z.1, some (z.2 :: cs))
            else
              let z := ins H cA rem r
              (z.1, some (z.2 :: cs))
          else
            let z := ins H cA ('/' :: seg.drop k ++ rem) r
            (z.1, some (z.2 :: cs))
        else
          let zm := alloc H { c with pfxH := c.pfxH.drop k }
          if k = seg.length then
            if rem = [] then
              let zs := alloc zm.1 ⟨.nstatic, seg.take k, [], some r, [zm.2], none⟩
              (zs.1, some (zs.2 :: cs))
            else
              let zs := alloc zm.1 ⟨.nstatic, seg.take k, [], none, [zm.2], none⟩
              let zi := ins zs.1 zs.2 rem r
              (zi.1, some (zi.2 :: cs))
          else
            let zs := alloc zm.1 ⟨.nstatic, seg.take k, [], none, [zm.2], none⟩
            let zi := ins zs.1 zs.2 ('/' :: seg.drop k ++ rem) r
            (zi.1, some (zi.2 :: cs))

/-- Modelled from the spec: the repository's copy-on-write insertion
`node.insertWithCopy` (declared in ARCHITECTURE.md, source not under
src/).  "Every node on the path from the tree root down to the mutation
point is replaced by a fresh node that shares untouched siblings/subtrees
with the old tree (only the spine is copied, not the whole tree)."
Returns the grown heap and the address of the new spine root; the input
heap is only ever appended to. -/
def insertWC : Nat → Heap → Nat → Str → Nat → Heap × Nat
  | 0, H, a, _, _ => (H, a)
  | fuel + 1, H, a, path, r =>
    match H[a]? with
    | none => (H, a)
    | some nd =>
      if path = ['/'] then alloc H { nd with routeH := some r }
      else
        let p := trimSlash path
        let seg := p.takeWhile (· ≠ '/')
        let rem := p.dropWhile (· ≠ '/')
        if seg.head? = some ':' then
          match nd.paramChildH with
          | some pcA =>
            if rem = [] then
              match H[pcA]? with
              | none => (H, a)
              | some pcN =>
                let z := alloc H { pcN with routeH := some r }
                alloc z.1 { nd with paramChildH := some z.2 }
            else
              let z := insertWC fuel H pcA rem r
              alloc z.1 { nd with paramChildH := some z.2 }
          | none =>
            if rem = [] then
              let z := alloc H ⟨.nparam, seg, seg.drop 1, some r, [], none⟩
              alloc z.1 { nd with paramChildH := some z.2 }
            else
              let z0 := alloc H ⟨.nparam, seg, seg.drop 1, none, [], none⟩
              let z := insertWC fuel z0.1 z0.2 rem r
              alloc z.1 { nd with paramChildH := some z.2 }
        else
          let z := goKidsWC (insertWC fuel) H nd.childrenH seg rem r
          match z.2 with
          | some cs' => alloc z.1 { nd with childrenH := cs' }
          | none =>
            if rem = [] then
              let zc := alloc z.1 ⟨.nstatic, seg, [], some r, [], none⟩
              alloc zc.1 { nd with childrenH := nd.childrenH ++ [zc.2] }
            else
              let zc := alloc z.1 ⟨.nstatic, seg, [], none, [], none⟩
              let zi := insertWC fuel zc.1 zc.2 rem r
              alloc zi.1 { nd with childrenH := nd.childrenH ++ [zi.2] }

/-- The static-children loop of the search, reading nodes through the
heap; the branching is that of `node.search`. -/
def tryStaticWC (go : Nat → Str → PMap → Option Nat × PMap) (H : Heap) :
    List Nat → Str → Str → PMap → Option (Option Nat × PMap)
  | [], _, _, _ => none
  | cA :: cs, seg, rem, pm =>
    match H[cA]? with
    | none => tryStaticWC go H cs seg rem pm
    | some c =>
      if c.nTypeH = .nstatic ∧ c.pfxH.isPrefixOf seg then
        some (if seg.length = c.pfxH.length then
                (if rem = [] then (c.routeH, pm) else go cA rem pm)
              else go cA ('/' :: seg.drop c.pfxH.length ++ rem) pm)
      else tryStaticWC go H cs seg rem pm

/-- `node.search` reading nodes through the heap: the same branching as
the pure model, with child pointers resolved by address. -/
def searchWC : Nat → Heap → Nat → Str → PMap → Option Nat × PMap
  | 0, _, _, _, pm => (none, pm)
  | fuel + 1, H, a, path, pm =>
    match H[a]? with
    | none => (none, pm)
    | some nd =>
      if path = ['/'] ∨ path = [] then (nd.routeH, pm)
      else
        let p := trimSlash path
        let seg := p.takeWhile (· ≠ '/')
        let rem := p.dropWhile (· ≠ '/')
        match tryStaticWC (searchWC fuel H) H nd.childrenH seg rem pm with
        | some res => res
        | none =>
          match nd.paramChildH with
          | some pcA =>
            match H[pcA]? with
            | none => (none, pm)
            | some pc =>
              let pm' := pmInsert pm pc.paramKeyH seg
              if rem = [] then (pc.routeH, pm') else searchWC fuel H pcA rem pm'
          | none => (none, pm)

/-- A small well-formed heap: the root (address 1) has one static child
`a ↦ 7` (address 0).  Witness input for C1. -/
def cowHeap : Heap :=
  [⟨.nstatic, s2l "a", [], some 7, [], none⟩,
   ⟨.nstatic, [], [], none, [0], none⟩]

-- ### Theorems

/-- Claim C5: `Chain` composes middleware with the first element outermost:
`Chain [] h = h` and `Chain (m :: ms) h = m (Chain ms h)`, hence
`Chain [m0, ..., mk] h = m0 (m1 (... mk h ...))` (stated as the right
fold of application). -/
theorem c5_chain_order :
    (∀ h : HandlerFunc, Chain [] h = h) ∧
    (∀ (m : MiddlewareFunc) (ms : List MiddlewareFunc) (h : HandlerFunc),
      Chain (m :: ms) h = m (Chain ms h)) ∧
    (∀ (ms : List MiddlewareFunc) (h : HandlerFunc),
      Chain ms h = ms.foldr (fun m k => m k) h) := by
  have hloop : ∀ (ms : List MiddlewareFunc) (h : HandlerFunc),
      chainLoop ms h = ms.foldl (fun h m => m h) h := by
    intro ms
    induction ms with
    | nil => intro h; rfl
    | cons m ms ih => intro h; simpa [chainLoop] using ih (m h)
  have hfold : ∀ (ms : List MiddlewareFunc) (h : HandlerFunc),
      Chain ms h = ms.foldr (fun m k => m k) h := by
    intro ms h
    rw [Chain, hloop, List.foldl_reverse]
  refine ⟨fun h => hfold [] h, fun m ms h => ?_, hfold⟩
  rw [hfold, hfold]
  rfl

/-- Claim C10: if the wrapped handler returns `(data, status, err)` without
panicking, `Recovery` returns exactly the same triple with the error
unmodified; if it panics with any value, `Recovery` returns
`(nil, 500, APIError "internal_server_error")` instead. -/
theorem c10_recovery (h : HandlerFunc) (ctx : Nat) (t : Triple) (v : Nat) :
    (h ctx = .ret t → Recovery h ctx = .ret t) ∧
    (h ctx = .fault v → Recovery h ctx = .ret recoveryTriple) := by
  constructor <;> intro he <;> simp [Recovery, he]

/-- Witness for C10 at concrete handlers: a normally returning handler
passes through unchanged; a panicking handler yields the 500 API error. -/
theorem c10_recovery_witness :
    Recovery (retHandler ⟨some 4, 200, none⟩) 0 = .ret ⟨some 4, 200, none⟩ ∧
    Recovery (faultHandler 3) 0 = .ret recoveryTriple :=
  ⟨(c10_recovery (retHandler ⟨some 4, 200, none⟩) 0 ⟨some 4, 200, none⟩ 3).1 rfl,
   (c10_recovery (faultHandler 3) 0 ⟨some 4, 200, none⟩ 3).2 rfl⟩

/-- Claim C6: registering `/posts/:postId/comments/:commentId` and searching
`/posts/123/comments/456` yields that route and exactly the bindings
`{postId: "123", commentId: "456"}`. -/
theorem c6_param_extraction (r : Nat) :
    searchBuilt [(s2l "/posts/:postId/comments/:commentId", r)]
      (s2l "/posts/123/comments/456")
    = some (some r, some [(s2l "postId", s2l "123"), (s2l "commentId", s2l "456")]) :=
  rfl

/-- Counterexample to claim C3: with `/users/me` and `/users/:id` both
registered, searching `/users/mexico` returns no route at all — not the
`/users/:id` route with `id ↦ "mexico"` as the claim states.  Search
commits to the static child `me` (a prefix of `mexico`) and never falls
back to the parameter child. -/
theorem c3_counterexample :
    searchBuilt [(s2l "/users/me", 1), (s2l "/users/:id", 2)] (s2l "/users/mexico")
      = some (none, none) ∧
    searchBuilt [(s2l "/users/me", 1), (s2l "/users/:id", 2)] (s2l "/users/mexico")
      ≠ some (some 2, some [(s2l "id", s2l "mexico")]) := by
  constructor
  · rfl
  · decide

/-- Amended claim C3: the parameter fallback is per-node and
non-backtracking: the parameter child is consulted only when no static
child's prefix is a prefix of the current segment; once a static child
prefix-matches, the search commits to it and can return no route even
though a registered parameterized pattern matches the path.  With
`/users/me` and `/users/:id` registered (in either order), `/users/123`
returns the parameter route with `id ↦ "123"`, while `/users/mexico`
returns no route. -/
theorem c3_amended (r1 r2 : Nat) :
    searchBuilt [(s2l "/users/me", r1), (s2l "/users/:id", r2)] (s2l "/users/123")
      = some (some r2, some [(s2l "id", s2l "123")]) ∧
    searchBuilt [(s2l "/users/:id", r2), (s2l "/users/me", r1)] (s2l "/users/123")
      = some (some r2, some [(s2l "id", s2l "123")]) ∧
    searchBuilt [(s2l "/users/me", r1), (s2l "/users/:id", r2)] (s2l "/users/mexico")
      = some (none, none) ∧
    searchBuilt [(s2l "/users/:id", r2), (s2l "/users/me", r1)] (s2l "/users/mexico")
      = some (none, none) :=
  ⟨rfl, rfl, rfl, rfl⟩

/-- Counterexample to claim C4: after registering `/a/:id` then `/a/:slug`,
searching `/a/x` returns the second route but with `"x"` bound under the
first parameter name `id` — not under the later name `slug` as the claim
states.  `node.insert` only creates the parameter child when the slot is
empty, so the second registration overwrites the route but keeps the
original `paramKey`. -/
theorem c4_counterexample :
    searchBuilt [(s2l "/a/:id", 1), (s2l "/a/:slug", 2)] (s2l "/a/x")
      = some (some 2, some [(s2l "id", s2l "x")]) ∧
    searchBuilt [(s2l "/a/:id", 1), (s2l "/a/:slug", 2)] (s2l "/a/x")
      ≠ some (some 2, some [(s2l "slug", s2l "x")]) := by
  constructor
  · rfl
  · decide

/-- Amended claim C4: registering a second, distinct parameter name at the
same tree position silently reuses the existing parameter-child slot: the
later route wins, but the slot keeps the original parameter name, so a
subsequent search for `/a/x` returns the second route with `"x"` bound
under the first name (`id`), the later name (`slug`) being absent. -/
theorem c4_amended (r1 r2 : Nat) :
    searchBuilt [(s2l "/a/:id", r1), (s2l "/a/:slug", r2)] (s2l "/a/x")
      = some (some r2, some [(s2l "id", s2l "x")]) :=
  rfl

@[simp]
lemma strip_nType (n : Node) : (stripParams n).nType = n.nType := by
  cases n with
  | node t px pk rt cs pc => simp [stripParams, Node.nType]

@[simp]
lemma strip_pfx (n : Node) : (stripParams n).pfx = n.pfx := by
  cases n with
  | node t px pk rt cs pc => simp [stripParams, Node.pfx]

@[simp]
lemma strip_route (n : Node) : (stripParams n).route = n.route := by
  cases n with
  | node t px pk rt cs pc => simp [stripParams, Node.route]

lemma stripList_eq_map (cs : List Node) : stripList cs = cs.map stripParams := by
  induction cs with
  | nil => rfl
  | cons c cs ih => simp [stripList, ih]

lemma strip_children (n : Node) :
    (stripParams n).children = n.children.map stripParams := by
  cases n with
  | node t px pk rt cs pc =>
    simp [stripParams, Node.children, stripList_eq_map]

@[simp]
lemma strip_paramChild (n : Node) : (stripParams n).paramChild = none := by
  cases n with
  | node t px pk rt cs pc => simp [stripParams, Node.paramChild]

/-- If the static-children loop succeeds on the static skeleton with a
route, it succeeds identically on the full children list: the loop's
branching depends only on node kinds and prefixes, which `stripParams`
preserves. -/
lemma tryStatic_strip (f : Nat)
    (ih : ∀ (n : Node) (p : Str) (pm : PMap) (r : Nat),
      (nodeSearch f (stripParams n) p pm).1 = some r →
      nodeSearch f n p pm = (some r, pm)) :
    ∀ (cs : List Node) (seg rem : Str) (pm : PMap) (r : Nat)
      (res : Option Nat × PMap),
      tryStatic (nodeSearch f) (cs.map stripParams) seg rem pm = some res →
      res.1 = some r →
      tryStatic (nodeSearch f) cs seg rem pm = some (some r, pm) := by
  intro cs
  induction cs with
  | nil =>
    intro seg rem pm r res h hr
    simp [tryStatic] at h
  | cons c cs ihc =>
    intro seg rem pm r res h hr
    simp only [List.map_cons, tryStatic, strip_nType, strip_pfx, strip_route] at h ⊢
    by_cases hc : c.nType = NType.nstatic ∧ c.pfx.isPrefixOf seg
    · rw [if_pos hc] at h ⊢
      rcases Option.some.inj h with rfl
      by_cases hlen : seg.length = c.pfx.length
      · rw [if_pos hlen] at hr ⊢
        by_cases hrem : rem = []
        · rw [if_pos hrem] at hr ⊢
          simp only at hr
          simp [hr]
        · rw [if_neg hrem] at hr ⊢
          rw [ih c rem pm r hr]
      · rw [if_neg hlen] at hr ⊢
        rw [ih c ('/' :: seg.drop c.pfx.length ++ rem) pm r hr]
    · rw [if_neg hc] at h ⊢
      exact ihc seg rem pm r res h hr

/-- A search that resolves a route in the static skeleton of a tree
resolves identically on the full tree, and never touches the parameter
map: static children always take priority over the parameter child. -/
lemma search_strip (f : Nat) :
    ∀ (n : Node) (p : Str) (pm : PMap) (r : Nat),
      (nodeSearch f (stripParams n) p pm).1 = some r →
      nodeSearch f n p pm = (some r, pm) := by
  induction f with
  | zero => intro n p pm r h; simp [nodeSearch] at h
  | succ f ih =>
    intro n p pm r h
    simp only [nodeSearch] at h ⊢
    by_cases hp : p = ['/'] ∨ p = []
    · rw [if_pos hp] at h ⊢
      rw [strip_route] at h
      simp only at h
      simp [h]
    · rw [if_neg hp] at h ⊢
      rw [strip_children] at h
      cases htr : tryStatic (nodeSearch f)
          (n.children.map stripParams)
          ((trimSlash p).takeWhile (· ≠ '/'))
          ((trimSlash p).dropWhile (· ≠ '/')) pm with
      | some res =>
        rw [htr] at h
        simp only at h
        rw [tryStatic_strip f ih n.children _ _ pm r res htr h]
      | none =>
        rw [htr, strip_paramChild] at h
        simp at h

/-- Claim C9: when search resolves a route that is reachable through
static segments alone (a route whose pattern has no parameter segments),
the returned parameter mapping is absent (`nil`): the parameter container
is allocated only when a parameter child is actually taken on the match
path. -/
theorem c9_lazy_allocation (t : Node) (p : Str) (r : Nat)
    (h : (treeSearch (stripParams t) p).1 = some r) :
    treeSearch t p = (some r, none) := by
  simp only [treeSearch] at h ⊢
  cases hs : (nodeSearch ((if p = [] then ['/'] else p).length + 1)
      (stripParams t) (if p = [] then ['/'] else p) none).1 with
  | none => rw [hs] at h; simp at h
  | some r' =>
    rw [hs] at h
    simp only at h
    rcases Option.some.inj h with rfl
    rw [search_strip _ _ _ _ _ hs]

/-- Witness for C9: the tree holding only the static route `/static ↦ 5`
resolves `/static` in its static skeleton, and the full search returns the
route with a `nil` parameter map. -/
theorem c9_lazy_allocation_witness :
    (treeSearch (stripParams staticTree) (s2l "/static")).1 = some 5 ∧
    treeSearch staticTree (s2l "/static") = (some 5, none) :=
  ⟨rfl, c9_lazy_allocation staticTree (s2l "/static") 5 rfl⟩

/-- Claim C2: static routes take priority over a same-position parameter
route.  Whenever the static skeleton of a tree resolves a path to a route,
the full search (parameter children present) returns exactly that route;
in particular, with `/users/:id` and `/users/me` both registered (either
order), searching `/users/me` returns the `/users/me` route, not the
parameterized one. -/
theorem c2_static_priority (t : Node) (p : Str) (f r rId rMe : Nat)
    (h : (nodeSearch f (stripParams t) p none).1 = some r) :
    nodeSearch f t p none = (some r, none) ∧
    searchBuilt [(s2l "/users/:id", rId), (s2l "/users/me", rMe)] (s2l "/users/me")
      = some (some rMe, none) ∧
    searchBuilt [(s2l "/users/me", rMe), (s2l "/users/:id", rId)] (s2l "/users/me")
      = some (some rMe, none) :=
  ⟨search_strip f t p none r h, rfl, rfl⟩

/-- Witness for C2: instantiated on the tree `{/users/:id ↦ 1, /users/me ↦ 2}`
and the path `/users/me`. -/
theorem c2_static_priority_witness :
    (nodeSearch 10 (stripParams usersTree) (s2l "/users/me") none).1 = some 2 ∧
    nodeSearch 10 usersTree (s2l "/users/me") none = (some 2, none) :=
  ⟨rfl, (c2_static_priority usersTree (s2l "/users/me") 10 2 1 2 rfl).1⟩

-- Setter/accessor computation lemmas.

@[simp]
lemma setRoute_pfx (n : Node) (r : Nat) : (n.setRoute r).pfx = n.pfx := by
  cases n; rfl

@[simp]
lemma setRoute_nType (n : Node) (r : Nat) : (n.setRoute r).nType = n.nType := by
  cases n; rfl

@[simp]
lemma setRoute_children (n : Node) (r : Nat) :
    (n.setRoute r).children = n.children := by
  cases n; rfl

@[simp]
lemma setRoute_paramChild (n : Node) (r : Nat) :
    (n.setRoute r).paramChild = n.paramChild := by
  cases n; rfl

@[simp]
lemma setRoute_route (n : Node) (r : Nat) : (n.setRoute r).route = some r := by
  cases n; rfl

@[simp]
lemma setRoute_paramKey (n : Node) (r : Nat) :
    (n.setRoute r).paramKey = n.paramKey := by
  cases n; rfl

@[simp]
lemma setPfx_pfx (n : Node) (p : Str) : (n.setPfx p).pfx = p := by
  cases n; rfl

@[simp]
lemma setPfx_nType (n : Node) (p : Str) : (n.setPfx p).nType = n.nType := by
  cases n; rfl

@[simp]
lemma setPfx_children (n : Node) (p : Str) :
    (n.setPfx p).children = n.children := by
  cases n; rfl

@[simp]
lemma setPfx_paramChild (n : Node) (p : Str) :
    (n.setPfx p).paramChild = n.paramChild := by
  cases n; rfl

@[simp]
lemma setPfx_route (n : Node) (p : Str) : (n.setPfx p).route = n.route := by
  cases n; rfl

@[simp]
lemma setChildren_pfx (n : Node) (cs : List Node) :
    (n.setChildren cs).pfx = n.pfx := by
  cases n; rfl

@[simp]
lemma setChildren_nType (n : Node) (cs : List Node) :
    (n.setChildren cs).nType = n.nType := by
  cases n; rfl

@[simp]
lemma setChildren_children (n : Node) (cs : List Node) :
    (n.setChildren cs).children = cs := by
  cases n; rfl

@[simp]
lemma setChildren_paramChild (n : Node) (cs : List Node) :
    (n.setChildren cs).paramChild = n.paramChild := by
  cases n; rfl

@[simp]
lemma setChildren_route (n : Node) (cs : List Node) :
    (n.setChildren cs).route = n.route := by
  cases n; rfl

@[simp]
lemma setParamChild_pfx (n : Node) (pc : Node) :
    (n.setParamChild pc).pfx = n.pfx := by
  cases n; rfl

@[simp]
lemma setParamChild_nType (n : Node) (pc : Node) :
    (n.setParamChild pc).nType = n.nType := by
  cases n; rfl

@[simp]
lemma setParamChild_children (n : Node) (pc : Node) :
    (n.setParamChild pc).children = n.children := by
  cases n; rfl

@[simp]
lemma setParamChild_paramChild (n : Node) (pc : Node) :
    (n.setParamChild pc).paramChild = some pc := by
  cases n; rfl

@[simp]
lemma setParamChild_route (n : Node) (pc : Node) :
    (n.setParamChild pc).route = n.route := by
  cases n; rfl

@[simp]
lemma node_nType (t : NType) (px pk : Str) (rt : Option Nat)
    (cs : List Node) (pc : Option Node) :
    (Node.node t px pk rt cs pc).nType = t := rfl

@[simp]
lemma node_pfx (t : NType) (px pk : Str) (rt : Option Nat)
    (cs : List Node) (pc : Option Node) :
    (Node.node t px pk rt cs pc).pfx = px := rfl

@[simp]
lemma node_paramKey (t : NType) (px pk : Str) (rt : Option Nat)
    (cs : List Node) (pc : Option Node) :
    (Node.node t px pk rt cs pc).paramKey = pk := rfl

@[simp]
lemma node_route (t : NType) (px pk : Str) (rt : Option Nat)
    (cs : List Node) (pc : Option Node) :
    (Node.node t px pk rt cs pc).route = rt := rfl

@[simp]
lemma node_children (t : NType) (px pk : Str) (rt : Option Nat)
    (cs : List Node) (pc : Option Node) :
    (Node.node t px pk rt cs pc).children = cs := rfl

@[simp]
lemma node_paramChild (t : NType) (px pk : Str) (rt : Option Nat)
    (cs : List Node) (pc : Option Node) :
    (Node.node t px pk rt cs pc).paramChild = pc := rfl

-- Facts about `longestCommonPfx` and `List.isPrefixOf`.

lemma lcp_le_left (a b : Str) : longestCommonPfx a b ≤ a.length := by
  induction a generalizing b with
  | nil => simp [longestCommonPfx]
  | cons x xs ih =>
    cases b with
    | nil => simp [longestCommonPfx]
    | cons y ys =>
      simp only [longestCommonPfx]
      split
      · simpa using ih ys
      · simp

lemma lcp_le_right (a b : Str) : longestCommonPfx a b ≤ b.length := by
  induction a generalizing b with
  | nil => simp [longestCommonPfx]
  | cons x xs ih =>
    cases b with
    | nil => simp [longestCommonPfx]
    | cons y ys =>
      simp only [longestCommonPfx]
      split
      · simpa using ih ys
      · simp

lemma lcp_ne_zero_head (a b : Str) (h : longestCommonPfx a b ≠ 0) :
    a.head? = b.head? ∧ a ≠ [] ∧ b ≠ [] := by
  cases a with
  | nil => simp [longestCommonPfx] at h
  | cons x xs =>
    cases b with
    | nil => simp [longestCommonPfx] at h
    | cons y ys =>
      simp only [longestCommonPfx] at h
      split at h
      · subst_vars; simp_all
      · simp at h

lemma lcp_zero_head (a b : Str) (ha : a ≠ []) (hb : b ≠ [])
    (h : longestCommonPfx a b = 0) : a.head? ≠ b.head? := by
  cases a with
  | nil => exact absurd rfl ha
  | cons x xs =>
    cases b with
    | nil => exact absurd rfl hb
    | cons y ys =>
      simp only [longestCommonPfx] at h
      split at h
      · simp at h
      · simp_all

lemma lcp_full_prefix (a b : Str) (h : longestCommonPfx a b = b.length) :
    b.isPrefixOf a := by
  induction b generalizing a with
  | nil => simp [List.isPrefixOf]
  | cons y ys ih =>
    cases a with
    | nil => simp [longestCommonPfx] at h
    | cons x xs =>
      simp only [longestCommonPfx] at h
      split at h
      · rename_i hxy
        subst hxy
        simp only [List.length_cons, Nat.add_right_cancel_iff] at h
        simp [List.isPrefixOf, ih xs h]
      · simp at h

lemma isPrefixOf_head (x : Char) (xs b : Str)
    (h : (x :: xs).isPrefixOf b = true) : b.head? = some x := by
  cases b with
  | nil => simp [List.isPrefixOf] at h
  | cons y ys =>
    simp only [List.isPrefixOf, Bool.and_eq_true, beq_iff_eq] at h
    simp [h.1]

lemma not_isPrefixOf_of_head_ne (p s : Str) (hp : p ≠ [])
    (h : p.head? ≠ s.head?) : ¬ (p.isPrefixOf s = true) := by
  intro hpre
  cases p with
  | nil => exact hp rfl
  | cons x xs => exact h ((isPrefixOf_head x xs s hpre) ▸ rfl)

lemma take_isPrefixOf (s : Str) (k : Nat) : (s.take k).isPrefixOf s = true := by
  rw [List.isPrefixOf_iff_prefix]
  exact List.take_prefix k s

lemma prefix_of_isPrefixOf (p s : Str) (h : p.isPrefixOf s = true) :
    p.length ≤ s.length ∧ s.take p.length = p := by
  rw [List.isPrefixOf_iff_prefix] at h
  exact ⟨h.length_le, (List.prefix_iff_eq_take.mp h).symm⟩

-- Splitting a clean path into segment and remainder.

lemma takeWhile_append_all (p : Char → Bool) (s rest : Str)
    (hs : ∀ x ∈ s, p x = true) :
    (s ++ rest).takeWhile p = s ++ rest.takeWhile p := by
  induction s with
  | nil => rfl
  | cons x xs ih =>
    simp only [List.cons_append, List.takeWhile_cons]
    rw [hs x (by simp)]
    simp [ih (fun y hy => hs y (by simp [hy]))]

lemma dropWhile_append_all (p : Char → Bool) (s rest : Str)
    (hs : ∀ x ∈ s, p x = true) :
    (s ++ rest).dropWhile p = rest.dropWhile p := by
  induction s with
  | nil => rfl
  | cons x xs ih =>
    simp only [List.cons_append, List.dropWhile_cons]
    rw [hs x (by simp)]
    simp [ih (fun y hy => hs y (by simp [hy]))]

/-- Inversion of `CleanP` for a non-root path, phrased in terms of the
segment/remainder split used by `node.insert` and `node.search`. -/
lemma cleanP_split (path : Str) (hc : CleanP path) (hne : path ≠ ['/']) :
    ∃ s rest, path = '/' :: s ++ rest ∧
      (trimSlash path).takeWhile (· ≠ '/') = s ∧
      (trimSlash path).dropWhile (· ≠ '/') = rest ∧
      s ≠ [] ∧ '/' ∉ s ∧ SegOK s ∧
      (rest = [] ∨ (rest.head? = some '/' ∧ CleanP rest)) := by
  cases hc with
  | root => exact absurd rfl hne
  | last s hs hsl hok =>
    refine ⟨s, [], by simp, ?_, ?_, hs, hsl, hok, Or.inl rfl⟩
    · show (trimSlash ('/' :: s)).takeWhile (· ≠ '/') = s
      have : trimSlash ('/' :: s) = s := rfl
      rw [this, ← List.append_nil s]
      rw [takeWhile_append_all _ s []
        (fun x hx => by simp; exact fun h => hsl (h ▸ hx))]
      simp
    · show (trimSlash ('/' :: s)).dropWhile (· ≠ '/') = []
      have : trimSlash ('/' :: s) = s := rfl
      rw [this, ← List.append_nil s]
      rw [dropWhile_append_all _ s []
        (fun x hx => by simp; exact fun h => hsl (h ▸ hx))]
      rfl
  | seg s rest hs hsl hok hrh hrc =>
    have htrim : trimSlash ('/' :: s ++ rest) = s ++ rest := rfl
    have hall : ∀ x ∈ s, (decide (x ≠ '/')) = true := by
      intro x hx
      simp
      exact fun h => hsl (h ▸ hx)
    refine ⟨s, rest, rfl, ?_, ?_, hs, hsl, hok, Or.inr ⟨hrh, hrc⟩⟩
    · rw [show ('/' :: s ++ rest) = '/' :: (s ++ rest) by simp] at *
      rw [htrim, takeWhile_append_all _ s rest hall]
      cases rest with
      | nil => simp
      | cons y ys =>
        simp only [List.head?_cons, Option.some.injEq] at hrh
        subst hrh
        simp [List.takeWhile_cons]
    · rw [htrim, dropWhile_append_all _ s rest hall]
      cases rest with
      | nil => rfl
      | cons y ys =>
        simp only [List.head?_cons, Option.some.injEq] at hrh
        subst hrh
        simp [List.dropWhile_cons]

lemma cleanP_head (path : Str) (hc : CleanP path) :
    path.head? = some '/' ∧ path ≠ [] := by
  cases hc <;> simp

-- Characterization of the static-children loop of `node.insert`.

lemma goChildren_none_char (ins : Node → Str → Option Node) :
    ∀ (cs : List Node) (seg rem : Str) (r : Nat),
      goChildren ins cs seg rem r = some none →
      ∀ c ∈ cs, c.nType = NType.nstatic → longestCommonPfx seg c.pfx = 0 := by
  intro cs
  induction cs with
  | nil => intro seg rem r h c hc; simp at hc
  | cons c cs ih =>
    intro seg rem r h x hx hxs
    simp only [goChildren] at h
    by_cases hcs : c.nType ≠ NType.nstatic
    · rw [if_pos hcs] at h
      rcases Option.map_eq_some'.mp h with ⟨o, ho, hmap⟩
      cases o with
      | none =>
        rcases List.mem_cons.mp hx with rfl | hmem
        · exact absurd hxs hcs
        · exact ih seg rem r ho x hmem hxs
      | some l => simp at hmap
    · rw [if_neg hcs] at h
      by_cases hk : longestCommonPfx seg c.pfx = 0
      · rw [if_pos hk] at h
        rcases Option.map_eq_some'.mp h with ⟨o, ho, hmap⟩
        cases o with
        | none =>
          rcases List.mem_cons.mp hx with rfl | hmem
          · exact hk
          · exact ih seg rem r ho x hmem hxs
        | some l => simp at hmap
      · rw [if_neg hk] at h
        -- every branch here returns `some (some _)` or propagates a panic,
        -- never `some none`
        split at h
        · split at h
          · split at h
            · simp at h
            · rcases Option.map_eq_some'.mp h with ⟨c', _, hmap⟩; simp at hmap
          · rcases Option.map_eq_some'.mp h with ⟨c', _, hmap⟩; simp at hmap
        · split at h
          · split at h
            · simp at h
            · rcases Option.map_eq_some'.mp h with ⟨c', _, hmap⟩; simp at hmap
          · rcases Option.map_eq_some'.mp h with ⟨c', _, hmap⟩; simp at hmap

lemma goChildren_some_char (ins : Node → Str → Option Node) :
    ∀ (cs : List Node) (seg rem : Str) (r : Nat) (cs' : List Node),
      goChildren ins cs seg rem r = some (some cs') →
      ∃ pre c post c', cs = pre ++ c :: post ∧ cs' = pre ++ c' :: post ∧
        (∀ x ∈ pre, x.nType ≠ NType.nstatic ∨ longestCommonPfx seg x.pfx = 0) ∧
        c.nType = NType.nstatic ∧ longestCommonPfx seg c.pfx ≠ 0 ∧
        handled ins seg rem r c c' := by
  intro cs
  induction cs with
  | nil => intro seg rem r cs' h; simp [goChildren] at h
  | cons c cs ih =>
    intro seg rem r cs' h
    simp only [goChildren] at h
    by_cases hcs : c.nType ≠ NType.nstatic
    · rw [if_pos hcs] at h
      rcases Option.map_eq_some'.mp h with ⟨o, ho, hmap⟩
      cases o with
      | none => simp at hmap
      | some l =>
        simp only [Option.map_some', Option.some.injEq] at hmap
        rcases ih seg rem r l ho with ⟨pre, d, post, d', hcs2, hl, hpre, hd1, hd2, hd3⟩
        refine ⟨c :: pre, d, post, d', by simp [hcs2], by simp [← hmap, hl], ?_, hd1, hd2, hd3⟩
        intro x hx
        rcases List.mem_cons.mp hx with rfl | hmem
        · exact Or.inl hcs
        · exact hpre x hmem
    · rw [if_neg hcs] at h
      push_neg at hcs
      by_cases hk : longestCommonPfx seg c.pfx = 0
      · rw [if_pos hk] at h
        rcases Option.map_eq_some'.mp h with ⟨o, ho, hmap⟩
        cases o with
        | none => simp at hmap
        | some l =>
          simp only [Option.map_some', Option.some.injEq] at hmap
          rcases ih seg rem r l ho with ⟨pre, d, post, d', hcs2, hl, hpre, hd1, hd2, hd3⟩
          refine ⟨c :: pre, d, post, d', by simp [hcs2], by simp [← hmap, hl], ?_, hd1, hd2, hd3⟩
          intro x hx
          rcases List.mem_cons.mp hx with rfl | hmem
          · exact Or.inr hk
          · exact hpre x hmem
      · rw [if_neg hk] at h
        refine ⟨[], c, cs, ?_⟩
        split at h
        · rename_i hkpfx
          split at h
          · rename_i hkseg
            split at h
            · rename_i hrem
              rcases Option.some.inj h with h2
              rcases Option.some.inj h2 with h3
              exact ⟨c.setRoute r, rfl, by simp [← h3], by simp, hcs, hk,
                Or.inl ⟨hkpfx, hkseg, hrem, rfl⟩⟩
            · rename_i hrem
              rcases Option.map_eq_some'.mp h with ⟨c', hc', hmap⟩
              simp only [Option.some.injEq] at hmap
              exact ⟨c', rfl, by simp [← hmap], by simp, hcs, hk,
                Or.inr (Or.inl ⟨hkpfx, hkseg, hrem, hc'⟩)⟩
          · rename_i hkseg
            rcases Option.map_eq_some'.mp h with ⟨c', hc', hmap⟩
            simp only [Option.some.injEq] at hmap
            exact ⟨c', rfl, by simp [← hmap], by simp, hcs, hk,
              Or.inr (Or.inr (Or.inl ⟨hkpfx, hkseg, hc'⟩))⟩
        · rename_i hkpfx
          split at h
          · rename_i hkseg
            split at h
            · rename_i hrem
              rcases Option.some.inj h with h2
              rcases Option.some.inj h2 with h3
              exact ⟨(splitOf c seg (longestCommonPfx seg c.pfx)).setRoute r, rfl,
                by simp [← h3, splitOf], by simp, hcs, hk,
                Or.inr (Or.inr (Or.inr (Or.inl ⟨hkpfx, hkseg, hrem, rfl⟩)))⟩
            · rename_i hrem
              rcases Option.map_eq_some'.mp h with ⟨c', hc', hmap⟩
              simp only [Option.some.injEq] at hmap
              refine ⟨c', rfl, by simp [← hmap], by simp, hcs, hk,
                Or.inr (Or.inr (Or.inr (Or.inr (Or.inl ⟨hkpfx, hkseg, hrem, ?_⟩))))⟩
              simpa [splitOf] using hc'
          · rename_i hkseg
            rcases Option.map_eq_some'.mp h with ⟨c', hc', hmap⟩
            simp only [Option.some.injEq] at hmap
            refine ⟨c', rfl, by simp [← hmap], by simp, hcs, hk,
              Or.inr (Or.inr (Or.inr (Or.inr (Or.inr ⟨hkpfx, hkseg, ?_⟩))))⟩
            simpa [splitOf] using hc'

/-- A successful `node.insert` never changes the node's own prefix or
kind: all updates go to its route, children or parameter child. -/
lemma nodeInsert_shape : ∀ (f : Nat) (n : Node) (path : Str) (r : Nat) (n' : Node),
    nodeInsert f n path r = some n' → n'.pfx = n.pfx ∧ n'.nType = n.nType := by
  intro f n path r n' h
  cases f with
  | zero => simp [nodeInsert] at h
  | succ f =>
    simp only [nodeInsert] at h
    split at h
    · rcases Option.some.inj h with rfl; simp
    · split at h
      · split at h
        · rcases Option.some.inj h with rfl; simp
        · rcases Option.map_eq_some'.mp h with ⟨pc', _, rfl⟩; simp
      · split at h
        · exact absurd h (by simp)
        · rcases Option.some.inj h with rfl; simp
        · split at h
          · exact absurd h (by simp)
          · split at h
            · rcases Option.some.inj h with rfl; simp
            · rcases Option.map_eq_some'.mp h with ⟨c', _, rfl⟩; simp

-- Small helpers for the insert invariants.

lemma take_head? (l : Str) (k : Nat) (hk : k ≠ 0) :
    (l.take k).head? = l.head? := by
  cases l with
  | nil => simp
  | cons x xs =>
    cases k with
    | zero => exact absurd rfl hk
    | succ k => simp

lemma InvB_setRoute (n : Node) (r : Nat) (h : InvB n) : InvB (n.setRoute r) := by
  cases h with
  | mk t px pk rt cs pc hne hdis hcs hpc =>
    exact InvB.mk t px pk (some r) cs pc hne hdis hcs hpc

lemma InvB_setPfx (n : Node) (p : Str) (h : InvB n) : InvB (n.setPfx p) := by
  cases h with
  | mk t px pk rt cs pc hne hdis hcs hpc =>
    exact InvB.mk t p pk rt cs pc hne hdis hcs hpc

lemma InvB_leaf (t : NType) (px pk : Str) (rt : Option Nat) :
    InvB (.node t px pk rt [] none) :=
  InvB.mk t px pk rt [] none (by simp) (by simp) (by simp) (by simp)

lemma InvC_setRoute (n : Node) (r : Nat) (h : InvC n) : InvC (n.setRoute r) := by
  cases h with
  | mk t px pk rt cs pc hne hdis hcs hpc =>
    exact InvC.mk t px pk (some r) cs pc hne hdis hcs hpc

lemma InvC_setPfx (n : Node) (p : Str) (h : InvC n) : InvC (n.setPfx p) := by
  cases h with
  | mk t px pk rt cs pc hne hdis hcs hpc =>
    exact InvC.mk t p pk rt cs pc hne hdis hcs hpc

lemma InvC_leaf (t : NType) (px pk : Str) (rt : Option Nat) :
    InvC (.node t px pk rt [] none) :=
  InvC.mk t px pk rt [] none (by simp) (by simp) (by simp) (by simp)

lemma pairwise_replace {P : Node → Node → Prop} {pre post : List Node} {c c' : Node}
    (hp : (pre ++ c :: post).Pairwise P)
    (h1 : ∀ x, P x c → P x c') (h2 : ∀ x, P c x → P c' x) :
    (pre ++ c' :: post).Pairwise P := by
  rw [List.pairwise_append] at hp ⊢
  obtain ⟨hpre, hcpost, hcross⟩ := hp
  rcases List.pairwise_cons.mp hcpost with ⟨hc_post, hpost⟩
  refine ⟨hpre, List.pairwise_cons.mpr ⟨fun y hy => h2 y (hc_post y hy), hpost⟩,
    fun a ha b hb => ?_⟩
  rcases List.mem_cons.mp hb with rfl | hb2
  · exact h1 a (hcross a ha c (by simp))
  · exact hcross a ha b (by simp [hb2])

lemma InvB_splitOf (c : Node) (seg : Str) (k : Nat) (hc : InvB c)
    (hcstatic : c.nType = NType.nstatic) (hklt : k < c.pfx.length) :
    InvB (splitOf c seg k) := by
  refine InvB.mk _ _ _ _ _ _ ?_ (by simp) ?_ (by simp)
  · intro x hx _
    rcases List.mem_singleton.mp hx with rfl
    simp only [setPfx_pfx]
    intro hnil
    rw [List.drop_eq_nil_iff] at hnil
    omega
  · intro x hx
    rcases List.mem_singleton.mp hx with rfl
    exact InvB_setPfx c _ hc

lemma InvC_splitOf (c : Node) (seg : Str) (k : Nat) (hc : InvC c)
    (hcstatic : c.nType = NType.nstatic) (hklt : k < c.pfx.length)
    (hcolon : ':' ∉ c.pfx) :
    InvC (splitOf c seg k) := by
  refine InvC.mk _ _ _ _ _ _ ?_ (by simp) ?_ (by simp)
  · intro x hx _
    rcases List.mem_singleton.mp hx with rfl
    simp only [setPfx_pfx]
    constructor
    · intro hnil
      rw [List.drop_eq_nil_iff] at hnil
      omega
    · intro hmem
      exact hcolon (List.mem_of_mem_drop hmem)
  · intro x hx
    rcases List.mem_singleton.mp hx with rfl
    exact InvC_setPfx c _ hc

/-- What `node.insert`'s handling of the first prefix-sharing child does
to the basic invariant: the replacement keeps the child's kind, first
byte and nonemptiness, and preserves `InvB`. -/
lemma handled_invB (f : Nat) (r : Nat)
    (ih : ∀ (n : Node) (path : Str) (n' : Node),
      nodeInsert f n path r = some n' → InvB n → InvB n')
    (seg rem : Str) (c c' : Node)
    (hc : InvB c) (hcstatic : c.nType = NType.nstatic) (hcpfx : c.pfx ≠ [])
    (hk : longestCommonPfx seg c.pfx ≠ 0)
    (hh : handled (fun c q => nodeInsert f c q r) seg rem r c c') :
    InvB c' ∧ c'.nType = NType.nstatic ∧ c'.pfx.head? = c.pfx.head? ∧
      c'.pfx ≠ [] := by
  have hhead := lcp_ne_zero_head seg c.pfx hk
  have hkseg := lcp_le_left seg c.pfx
  have hkpfx := lcp_le_right seg c.pfx
  have htake_head : (seg.take (longestCommonPfx seg c.pfx)).head? = c.pfx.head? := by
    rw [take_head? seg _ hk]; exact hhead.1
  have htake_ne : seg.take (longestCommonPfx seg c.pfx) ≠ [] := by
    intro hnil
    rw [List.take_eq_nil_iff] at hnil
    rcases hnil with h0 | h0
    · exact hk h0
    · exact hhead.2.1 h0
  rcases hh with ⟨h1, h2, h3, rfl⟩ | ⟨h1, h2, h3, hins⟩ | ⟨h1, h2, hins⟩ |
    ⟨h1, h2, h3, rfl⟩ | ⟨h1, h2, h3, hins⟩ | ⟨h1, h2, hins⟩
  · exact ⟨InvB_setRoute c r hc, by simp [hcstatic], by simp, by simp [hcpfx]⟩
  · rcases nodeInsert_shape f c rem r c' hins with ⟨hpfx, hnt⟩
    exact ⟨ih c rem c' hins hc, by rw [hnt]; exact hcstatic, by rw [hpfx],
      by rw [hpfx]; exact hcpfx⟩
  · rcases nodeInsert_shape f c _ r c' hins with ⟨hpfx, hnt⟩
    exact ⟨ih c _ c' hins hc, by rw [hnt]; exact hcstatic, by rw [hpfx],
      by rw [hpfx]; exact hcpfx⟩
  · have hsplit : InvB (splitOf c seg (longestCommonPfx seg c.pfx)) :=
      InvB_splitOf c seg _ hc hcstatic (by omega)
    refine ⟨InvB_setRoute _ r hsplit, ?_, ?_, ?_⟩
    · simp [splitOf]
    · simp only [setRoute_pfx, splitOf, Node.pfx]
      exact htake_head
    · simp only [setRoute_pfx, splitOf, Node.pfx]
      exact htake_ne
  · have hsplit : InvB (splitOf c seg (longestCommonPfx seg c.pfx)) :=
      InvB_splitOf c seg _ hc hcstatic (by omega)
    rcases nodeInsert_shape f _ rem r c' hins with ⟨hpfx, hnt⟩
    refine ⟨ih _ rem c' hins hsplit, ?_, ?_, ?_⟩
    · rw [hnt]; simp [splitOf]
    · rw [hpfx]; simpa [splitOf, Node.pfx] using htake_head
    · rw [hpfx]; simpa [splitOf, Node.pfx] using htake_ne
  · have hsplit : InvB (splitOf c seg (longestCommonPfx seg c.pfx)) :=
      InvB_splitOf c seg _ hc hcstatic (by omega)
    rcases nodeInsert_shape f _ _ r c' hins with ⟨hpfx, hnt⟩
    refine ⟨ih _ _ c' hins hsplit, ?_, ?_, ?_⟩
    · rw [hnt]; simp [splitOf]
    · rw [hpfx]; simpa [splitOf, Node.pfx] using htake_head
    · rw [hpfx]; simpa [splitOf, Node.pfx] using htake_ne

lemma InvB_setParamChild (n pc' : Node) (h : InvB n) (hpc' : InvB pc') :
    InvB (n.setParamChild pc') := by
  cases h with
  | mk t px pk rt cs pc hne hdis hcs hpc =>
    refine InvB.mk t px pk rt cs (some pc') hne hdis hcs ?_
    intro c hc
    rcases Option.some.inj hc with rfl
    exact hpc'

lemma InvC_setParamChild (n pc' : Node) (h : InvC n) (hpc' : InvC pc') :
    InvC (n.setParamChild pc') := by
  cases h with
  | mk t px pk rt cs pc hne hdis hcs hpc =>
    refine InvC.mk t px pk rt cs (some pc') hne hdis hcs ?_
    intro c hc
    rcases Option.some.inj hc with rfl
    exact hpc'

lemma InvB_replaceChild (n : Node) (pre post : List Node) (c c' : Node)
    (hn : InvB n) (hchildren : n.children = pre ++ c :: post)
    (hcnt : c.nType = NType.nstatic)
    (hnt : c'.nType = NType.nstatic)
    (hhd : c'.pfx.head? = c.pfx.head?) (hcne : c'.pfx ≠ [])
    (hinv : InvB c') :
    InvB (n.setChildren (pre ++ c' :: post)) := by
  cases hn with
  | mk t px pk rt cs pc hne hdis hcs hpc =>
    simp only [Node.children] at hchildren
    subst hchildren
    refine InvB.mk t px pk rt _ pc ?_ ?_ ?_ hpc
    · intro x hx hxs
      rcases List.mem_append.mp hx with hx1 | hx2
      · exact hne x (by simp [hx1]) hxs
      · rcases List.mem_cons.mp hx2 with rfl | hx3
        · exact hcne
        · exact hne x (by simp [hx3]) hxs
    · refine pairwise_replace hdis ?_ ?_
      · intro x hP hxs hc's
        rw [hhd]
        exact hP hxs hcnt
      · intro x hP hxs hc's
        rw [hhd]
        exact hP hcnt hc's
    · intro x hx
      rcases List.mem_append.mp hx with hx1 | hx2
      · exact hcs x (by simp [hx1])
      · rcases List.mem_cons.mp hx2 with rfl | hx3
        · exact hinv
        · exact hcs x (by simp [hx3])

lemma InvC_replaceChild (n : Node) (pre post : List Node) (c c' : Node)
    (hn : InvC n) (hchildren : n.children = pre ++ c :: post)
    (hcnt : c.nType = NType.nstatic)
    (hnt : c'.nType = NType.nstatic)
    (hhd : c'.pfx.head? = c.pfx.head?) (hcne : c'.pfx ≠ [])
    (hcolon : ':' ∉ c'.pfx)
    (hinv : InvC c') :
    InvC (n.setChildren (pre ++ c' :: post)) := by
  cases hn with
  | mk t px pk rt cs pc hne hdis hcs hpc =>
    simp only [Node.children] at hchildren
    subst hchildren
    refine InvC.mk t px pk rt _ pc ?_ ?_ ?_ hpc
    · intro x hx hxs
      rcases List.mem_append.mp hx with hx1 | hx2
      · exact hne x (by simp [hx1]) hxs
      · rcases List.mem_cons.mp hx2 with rfl | hx3
        · exact ⟨hcne, hcolon⟩
        · exact hne x (by simp [hx3]) hxs
    · refine pairwise_replace hdis ?_ ?_
      · intro x hP hxs hc's
        rw [hhd]
        exact hP hxs hcnt
      · intro x hP hxs hc's
        rw [hhd]
        exact hP hcnt hc's
    · intro x hx
      rcases List.mem_append.mp hx with hx1 | hx2
      · exact hcs x (by simp [hx1])
      · rcases List.mem_cons.mp hx2 with rfl | hx3
        · exact hinv
        · exact hcs x (by simp [hx3])

lemma InvB_appendChild (n x : Node) (hn : InvB n)
    (hnt : x.nType = NType.nstatic) (hxne : x.pfx ≠ []) (hinv : InvB x)
    (hdiff : ∀ a ∈ n.children, a.nType = NType.nstatic →
      a.pfx.head? ≠ x.pfx.head?) :
    InvB (n.setChildren (n.children ++ [x])) := by
  cases hn with
  | mk t px pk rt cs pc hne hdis hcs hpc =>
    simp only [Node.children] at hdiff
    refine InvB.mk t px pk rt _ pc ?_ ?_ ?_ hpc
    · intro y hy hys
      rcases List.mem_append.mp hy with hy1 | hy2
      · exact hne y hy1 hys
      · rcases List.mem_singleton.mp hy2 with rfl
        exact hxne
    · rw [List.pairwise_append]
      refine ⟨hdis, by simp, ?_⟩
      intro a ha b hb
      rcases List.mem_singleton.mp hb with rfl
      intro has hbs
      exact hdiff a ha has
    · intro y hy
      rcases List.mem_append.mp hy with hy1 | hy2
      · exact hcs y hy1
      · rcases List.mem_singleton.mp hy2 with rfl
        exact hinv

lemma InvC_appendChild (n x : Node) (hn : InvC n)
    (hnt : x.nType = NType.nstatic) (hxne : x.pfx ≠ [])
    (hxcolon : ':' ∉ x.pfx) (hinv : InvC x)
    (hdiff : ∀ a ∈ n.children, a.nType = NType.nstatic →
      a.pfx.head? ≠ x.pfx.head?) :
    InvC (n.setChildren (n.children ++ [x])) := by
  cases hn with
  | mk t px pk rt cs pc hne hdis hcs hpc =>
    simp only [Node.children] at hdiff
    refine InvC.mk t px pk rt _ pc ?_ ?_ ?_ hpc
    · intro y hy hys
      rcases List.mem_append.mp hy with hy1 | hy2
      · exact hne y hy1 hys
      · rcases List.mem_singleton.mp hy2 with rfl
        exact ⟨hxne, hxcolon⟩
    · rw [List.pairwise_append]
      refine ⟨hdis, by simp, ?_⟩
      intro a ha b hb
      rcases List.mem_singleton.mp hb with rfl
      intro has hbs
      exact hdiff a ha has
    · intro y hy
      rcases List.mem_append.mp hy with hy1 | hy2
      · exact hcs y hy1
      · rcases List.mem_singleton.mp hy2 with rfl
        exact hinv

lemma InvB_inv (n : Node) (h : InvB n) :
    (∀ c ∈ n.children, c.nType = NType.nstatic → c.pfx ≠ []) ∧
    (∀ c ∈ n.children, InvB c) ∧
    (∀ c, n.paramChild = some c → InvB c) := by
  cases h with
  | mk t px pk rt cs pc hne hdis hcs hpc =>
    exact ⟨by simpa using hne, by simpa using hcs, by simpa using hpc⟩

lemma InvC_inv (n : Node) (h : InvC n) :
    (∀ c ∈ n.children, c.nType = NType.nstatic → c.pfx ≠ [] ∧ ':' ∉ c.pfx) ∧
    (∀ c ∈ n.children, InvC c) ∧
    (∀ c, n.paramChild = some c → InvC c) := by
  cases h with
  | mk t px pk rt cs pc hne hdis hcs hpc =>
    exact ⟨by simpa using hne, by simpa using hcs, by simpa using hpc⟩

/-- `node.insert` preserves the basic structural invariant, for every
path (clean or not). -/
lemma nodeInsert_InvB : ∀ (f : Nat) (n : Node) (path : Str) (r : Nat) (n' : Node),
    nodeInsert f n path r = some n' → InvB n → InvB n' := by
  intro f
  induction f with
  | zero => intro n path r n' h hInv; simp [nodeInsert] at h
  | succ f ih =>
    intro n path r n' h hInv
    simp only [nodeInsert] at h
    split at h
    · rcases Option.some.inj h with rfl
      exact InvB_setRoute n r hInv
    · split at h
      · -- parameter branch
        rcases InvB_inv n hInv with ⟨hne0, hcs0, hpc0⟩
        cases hnp : n.paramChild with
        | some pc0 =>
          rw [hnp] at h
          split at h
          · rcases Option.some.inj h with rfl
            exact InvB_setParamChild n _ hInv (InvB_setRoute pc0 r (hpc0 pc0 hnp))
          · rcases Option.map_eq_some'.mp h with ⟨pc', hins, rfl⟩
            exact InvB_setParamChild n pc' hInv (ih pc0 _ r pc' hins (hpc0 pc0 hnp))
        | none =>
          rw [hnp] at h
          split at h
          · rcases Option.some.inj h with rfl
            exact InvB_setParamChild n _ hInv (InvB_setRoute _ r (InvB_leaf _ _ _ _))
          · rcases Option.map_eq_some'.mp h with ⟨pc', hins, rfl⟩
            exact InvB_setParamChild n pc' hInv (ih _ _ r pc' hins (InvB_leaf _ _ _ _))
      · -- static branch
        split at h
        · exact absurd h (by simp)
        · rename_i cs' hgo
          rcases Option.some.inj h with rfl
          rcases goChildren_some_char _ n.children _ _ r cs' hgo with
            ⟨pre, c, post, c', hsplit, hcs', hpre, hcstat, hk, hh⟩
          rcases InvB_inv n hInv with ⟨hne0, hcs0, hpc0⟩
          have hcInv : InvB c := hcs0 c (by rw [hsplit]; simp)
          have hcpfx : c.pfx ≠ [] := hne0 c (by rw [hsplit]; simp) hcstat
          rcases handled_invB f r (fun n p n' hh2 hi => ih n p r n' hh2 hi)
              _ _ c c' hcInv hcstat hcpfx hk hh with ⟨hinv', hnt', hhd', hne'⟩
          rw [hcs']
          exact InvB_replaceChild n pre post c c' hInv hsplit hcstat hnt' hhd' hne' hinv'
        · rename_i hgo
          split at h
          · exact absurd h (by simp)
          · rename_i hsegne
            have hnone := goChildren_none_char _ n.children _ _ r hgo
            rcases InvB_inv n hInv with ⟨hne0, hcs0, hpc0⟩
            split at h
            · rcases Option.some.inj h with rfl
              refine InvB_appendChild n _ hInv (by simp) (by simpa using hsegne)
                (InvB_setRoute _ r (InvB_leaf _ _ _ _)) ?_
              intro a ha has
              have hlcp := hnone a ha has
              have hd := lcp_zero_head _ a.pfx hsegne (hne0 a ha has) hlcp
              simp only [setRoute_pfx, node_pfx]
              exact fun hq => hd hq.symm
            · rcases Option.map_eq_some'.mp h with ⟨c', hins, rfl⟩
              rcases nodeInsert_shape f _ _ r c' hins with ⟨hpfx, hnt⟩
              simp only [node_pfx, node_nType] at hpfx hnt
              refine InvB_appendChild n c' hInv hnt (by rw [hpfx]; exact hsegne)
                (ih _ _ r c' hins (InvB_leaf _ _ _ _)) ?_
              intro a ha has
              have hlcp := hnone a ha has
              have hd := lcp_zero_head _ a.pfx hsegne (hne0 a ha has) hlcp
              rw [hpfx]
              exact fun hq => hd hq.symm

lemma InvB_Dfb (n : Node) (h : InvB n) : Dfb n := by
  induction h with
  | mk t px pk rt cs pc hne hdis hcs hpc ihcs ihpc =>
    exact Dfb.mk t px pk rt cs pc hdis ihcs ihpc

lemma treeInsert_InvB (n : Node) (p : Str) (r : Nat) (n' : Node)
    (h : treeInsert n p r = some n') (hInv : InvB n) : InvB n' := by
  simp only [treeInsert] at h
  exact nodeInsert_InvB _ n _ r n' h hInv

lemma insertAll_InvB : ∀ (l : List (Str × Nat)) (n t : Node),
    insertAll n l = some t → InvB n → InvB t := by
  intro l
  induction l with
  | nil =>
    intro n t h hInv
    rcases Option.some.inj h with rfl
    exact hInv
  | cons pr rest ih =>
    intro n t h hInv
    rcases pr with ⟨p, r⟩
    simp only [insertAll] at h
    rcases Option.bind_eq_some.mp h with ⟨n1, h1, h2⟩
    exact ih n1 t h2 (treeInsert_InvB n p r n1 h1 hInv)

/-- Claim C8: in every tree obtained from the empty tree by any sequence
of insertions, the static children of every reachable node have pairwise
distinct first bytes (a partially overlapping insertion splits the
existing child into an intermediate node holding the common prefix). -/
theorem c8_sibling_disjoint (l : List (Str × Nat)) (t : Node)
    (h : insertAll emptyRoot l = some t) : Dfb t :=
  InvB_Dfb t (insertAll_InvB l emptyRoot t h (InvB_leaf _ _ _ _))

/-- Witness for C8 on the registrations `/users/me`, `/users/:id`,
`/usage` (the last forcing a split of the shared prefix `us`). -/
theorem c8_sibling_disjoint_witness :
    Dfb ((insertAll emptyRoot
      [(s2l "/users/me", 1), (s2l "/users/:id", 2), (s2l "/usage", 3)]).getD
        emptyRoot) :=
  c8_sibling_disjoint [(s2l "/users/me", 1), (s2l "/users/:id", 2), (s2l "/usage", 3)]
    _ (by rfl)

lemma cleanP_tail (seg rem : Str) (k : Nat) (hk : k < seg.length)
    (hsl : '/' ∉ seg) (hsc : ':' ∉ seg)
    (hrem : rem = [] ∨ (rem.head? = some '/' ∧ CleanP rem)) :
    CleanP ('/' :: seg.drop k ++ rem) := by
  have hne : seg.drop k ≠ [] := by
    intro hnil
    rw [List.drop_eq_nil_iff] at hnil
    omega
  have hsl' : '/' ∉ seg.drop k := fun hm => hsl (List.mem_of_mem_drop hm)
  have hsc' : SegOK (seg.drop k) :=
    Or.inr (fun hm => hsc (List.mem_of_mem_drop hm))
  rcases hrem with rfl | ⟨hh, hc⟩
  · rw [List.append_nil]
    exact CleanP.last _ hne hsl' hsc'
  · exact CleanP.seg _ rem hne hsl' hsc' hh hc

/-- What `node.insert`'s handling of the first prefix-sharing child does
to the clean invariant. -/
lemma handled_invC (f : Nat) (r : Nat)
    (ih : ∀ (n : Node) (path : Str) (n' : Node),
      nodeInsert f n path r = some n' → InvC n → CleanP path → InvC n')
    (seg rem : Str) (c c' : Node)
    (hc : InvC c) (hcstatic : c.nType = NType.nstatic) (hcpfx : c.pfx ≠ [])
    (hccolon : ':' ∉ c.pfx)
    (hsl : '/' ∉ seg) (hsc : ':' ∉ seg)
    (hrem : rem = [] ∨ (rem.head? = some '/' ∧ CleanP rem))
    (hk : longestCommonPfx seg c.pfx ≠ 0)
    (hh : handled (fun c q => nodeInsert f c q r) seg rem r c c') :
    InvC c' ∧ c'.nType = NType.nstatic ∧ c'.pfx.head? = c.pfx.head? ∧
      c'.pfx ≠ [] ∧ ':' ∉ c'.pfx := by
  have hhead := lcp_ne_zero_head seg c.pfx hk
  have hkseg := lcp_le_left seg c.pfx
  have hkpfx := lcp_le_right seg c.pfx
  have htake_head : (seg.take (longestCommonPfx seg c.pfx)).head? = c.pfx.head? := by
    rw [take_head? seg _ hk]; exact hhead.1
  have htake_ne : seg.take (longestCommonPfx seg c.pfx) ≠ [] := by
    intro hnil
    rw [List.take_eq_nil_iff] at hnil
    rcases hnil with h0 | h0
    · exact hk h0
    · exact hhead.2.1 h0
  have htake_colon : ':' ∉ seg.take (longestCommonPfx seg c.pfx) :=
    fun hm => hsc (List.mem_of_mem_take hm)
  rcases hh with ⟨h1, h2, h3, rfl⟩ | ⟨h1, h2, h3, hins⟩ | ⟨h1, h2, hins⟩ |
    ⟨h1, h2, h3, rfl⟩ | ⟨h1, h2, h3, hins⟩ | ⟨h1, h2, hins⟩
  · exact ⟨InvC_setRoute c r hc, by simp [hcstatic], by simp, by simp [hcpfx],
      by simpa using hccolon⟩
  · have hcl : CleanP rem := by
      rcases hrem with rfl | ⟨_, hcp⟩
      · exact absurd rfl h3
      · exact hcp
    rcases nodeInsert_shape f c rem r c' hins with ⟨hpfx, hnt⟩
    exact ⟨ih c rem c' hins hc hcl, by rw [hnt]; exact hcstatic, by rw [hpfx],
      by rw [hpfx]; exact hcpfx, by rw [hpfx]; exact hccolon⟩
  · have hcl : CleanP ('/' :: seg.drop (longestCommonPfx seg c.pfx) ++ rem) :=
      cleanP_tail seg rem _ (by omega) hsl hsc hrem
    rcases nodeInsert_shape f c _ r c' hins with ⟨hpfx, hnt⟩
    exact ⟨ih c _ c' hins hc hcl, by rw [hnt]; exact hcstatic, by rw [hpfx],
      by rw [hpfx]; exact hcpfx, by rw [hpfx]; exact hccolon⟩
  · have hsplit : InvC (splitOf c seg (longestCommonPfx seg c.pfx)) :=
      InvC_splitOf c seg _ hc hcstatic (by omega) hccolon
    refine ⟨InvC_setRoute _ r hsplit, by simp [splitOf], ?_, ?_, ?_⟩
    · simp only [setRoute_pfx, splitOf, node_pfx]
      exact htake_head
    · simp only [setRoute_pfx, splitOf, node_pfx]
      exact htake_ne
    · simp only [setRoute_pfx, splitOf, node_pfx]
      exact htake_colon
  · have hsplit : InvC (splitOf c seg (longestCommonPfx seg c.pfx)) :=
      InvC_splitOf c seg _ hc hcstatic (by omega) hccolon
    have hcl : CleanP rem := by
      rcases hrem with rfl | ⟨_, hcp⟩
      · exact absurd rfl h3
      · exact hcp
    rcases nodeInsert_shape f _ rem r c' hins with ⟨hpfx, hnt⟩
    refine ⟨ih _ rem c' hins hsplit hcl, ?_, ?_, ?_, ?_⟩
    · rw [hnt]; simp [splitOf]
    · rw [hpfx]; simpa [splitOf, node_pfx] using htake_head
    · rw [hpfx]; simpa [splitOf, node_pfx] using htake_ne
    · rw [hpfx]; simpa [splitOf, node_pfx] using htake_colon
  · have hsplit : InvC (splitOf c seg (longestCommonPfx seg c.pfx)) :=
      InvC_splitOf c seg _ hc hcstatic (by omega) hccolon
    have hcl : CleanP ('/' :: seg.drop (longestCommonPfx seg c.pfx) ++ rem) :=
      cleanP_tail seg rem _ (by omega) hsl hsc hrem
    rcases nodeInsert_shape f _ _ r c' hins with ⟨hpfx, hnt⟩
    refine ⟨ih _ _ c' hins hsplit hcl, ?_, ?_, ?_, ?_⟩
    · rw [hnt]; simp [splitOf]
    · rw [hpfx]; simpa [splitOf, node_pfx] using htake_head
    · rw [hpfx]; simpa [splitOf, node_pfx] using htake_ne
    · rw [hpfx]; simpa [splitOf, node_pfx] using htake_colon

/-- `node.insert` with a clean pattern preserves the clean invariant. -/
lemma nodeInsert_InvC : ∀ (f : Nat) (n : Node) (path : Str) (r : Nat) (n' : Node),
    nodeInsert f n path r = some n' → InvC n → CleanP path → InvC n' := by
  intro f
  induction f with
  | zero => intro n path r n' h hInv hcp; simp [nodeInsert] at h
  | succ f ih =>
    intro n path r n' h hInv hcp
    simp only [nodeInsert] at h
    split at h
    · rcases Option.some.inj h with rfl
      exact InvC_setRoute n r hInv
    · rename_i hproot
      rcases cleanP_split path hcp hproot with
        ⟨s, rest, hpath, hseg_eq, hrem_eq, hs_ne, hs_slash, hs_ok, hrest⟩
      rw [hseg_eq, hrem_eq] at h
      split at h
      · -- parameter branch
        rename_i hscolon
        rcases InvC_inv n hInv with ⟨hne0, hcs0, hpc0⟩
        have hrestC : rest ≠ [] → CleanP rest := by
          intro hrne
          rcases hrest with rfl | ⟨_, hcp2⟩
          · exact absurd rfl hrne
          · exact hcp2
        cases hnp : n.paramChild with
        | some pc0 =>
          rw [hnp] at h
          split at h
          · rcases Option.some.inj h with rfl
            exact InvC_setParamChild n _ hInv (InvC_setRoute pc0 r (hpc0 pc0 hnp))
          · rename_i hrne
            rcases Option.map_eq_some'.mp h with ⟨pc', hins, rfl⟩
            exact InvC_setParamChild n pc' hInv
              (ih pc0 _ r pc' hins (hpc0 pc0 hnp) (hrestC hrne))
        | none =>
          rw [hnp] at h
          split at h
          · rcases Option.some.inj h with rfl
            exact InvC_setParamChild n _ hInv (InvC_setRoute _ r (InvC_leaf _ _ _ _))
          · rename_i hrne
            rcases Option.map_eq_some'.mp h with ⟨pc', hins, rfl⟩
            exact InvC_setParamChild n pc' hInv
              (ih _ _ r pc' hins (InvC_leaf _ _ _ _) (hrestC hrne))
      · -- static branch
        rename_i hscolon
        have hs_colon : ':' ∉ s := by
          rcases hs_ok with hhd | hnc
          · exact absurd hhd hscolon
          · exact hnc
        split at h
        · exact absurd h (by simp)
        · rename_i cs' hgo
          rcases Option.some.inj h with rfl
          rcases goChildren_some_char _ n.children _ _ r cs' hgo with
            ⟨pre, c, post, c', hsplit, hcs', hpre, hcstat, hk, hh⟩
          rcases InvC_inv n hInv with ⟨hne0, hcs0, hpc0⟩
          have hcInv : InvC c := hcs0 c (by rw [hsplit]; simp)
          rcases hne0 c (by rw [hsplit]; simp) hcstat with ⟨hcpfx, hccolon⟩
          rcases handled_invC f r (fun n p n' hh2 hi hcl => ih n p r n' hh2 hi hcl)
              _ _ c c' hcInv hcstat hcpfx hccolon hs_slash hs_colon hrest hk hh with
            ⟨hinv', hnt', hhd', hne', hcolon'⟩
          rw [hcs']
          exact InvC_replaceChild n pre post c c' hInv hsplit hcstat hnt' hhd'
            hne' hcolon' hinv'
        · rename_i hgo
          have hnone := goChildren_none_char _ n.children _ _ r hgo
          rcases InvC_inv n hInv with ⟨hne0, hcs0, hpc0⟩
          split at h
          · rcases Option.some.inj h with rfl
            refine InvC_appendChild n _ hInv (by simp) (by simpa using hs_ne)
              (by simpa using hs_colon)
              (InvC_setRoute _ r (InvC_leaf _ _ _ _)) ?_
            intro a ha has
            have hlcp := hnone a ha has
            have hd := lcp_zero_head _ a.pfx hs_ne (hne0 a ha has).1 hlcp
            simp only [setRoute_pfx, node_pfx]
            exact fun hq => hd hq.symm
          · rename_i hrne
            rcases Option.map_eq_some'.mp h with ⟨c', hins, rfl⟩
            have hrestC : CleanP rest := by
              rcases hrest with rfl | ⟨_, hcp2⟩
              · exact absurd rfl hrne
              · exact hcp2
            rcases nodeInsert_shape f _ _ r c' hins with ⟨hpfx, hnt⟩
            simp only [node_pfx, node_nType] at hpfx hnt
            refine InvC_appendChild n c' hInv hnt (by rw [hpfx]; exact hs_ne)
              (by rw [hpfx]; exact hs_colon)
              (ih _ _ r c' hins (InvC_leaf _ _ _ _) hrestC) ?_
            intro a ha has
            have hlcp := hnone a ha has
            have hd := lcp_zero_head _ a.pfx hs_ne (hne0 a ha has).1 hlcp
            rw [hpfx]
            exact fun hq => hd hq.symm

lemma tryStatic_skip (go : Node → Str → PMap → Option Nat × PMap)
    (cs l : List Node) (seg rem : Str) (pm : PMap)
    (hskip : ∀ c ∈ cs, ¬(c.nType = NType.nstatic ∧ c.pfx.isPrefixOf seg)) :
    tryStatic go (cs ++ l) seg rem pm = tryStatic go l seg rem pm := by
  induction cs with
  | nil => rfl
  | cons c cs ih =>
    simp only [List.cons_append, tryStatic]
    rw [if_neg (hskip c (by simp))]
    exact ih (fun x hx => hskip x (by simp [hx]))

lemma tryStatic_none (go : Node → Str → PMap → Option Nat × PMap)
    (cs : List Node) (seg rem : Str) (pm : PMap)
    (hskip : ∀ c ∈ cs, ¬(c.nType = NType.nstatic ∧ c.pfx.isPrefixOf seg)) :
    tryStatic go cs seg rem pm = none := by
  have := tryStatic_skip go cs [] seg rem pm hskip
  simpa using this

lemma no_match_of_lcp_zero (c : Node) (seg : Str) (hseg : seg ≠ [])
    (hstat : c.nType = NType.nstatic → c.pfx ≠ [])
    (hz : c.nType = NType.nstatic → longestCommonPfx seg c.pfx = 0) :
    ¬(c.nType = NType.nstatic ∧ c.pfx.isPrefixOf seg) := by
  rintro ⟨hs, hp⟩
  have hne := hstat hs
  have hzero := hz hs
  have hd := lcp_zero_head seg c.pfx hseg hne hzero
  exact not_isPrefixOf_of_head_ne c.pfx seg hne (fun he => hd he.symm) hp

lemma no_match_of_colon (c : Node) (seg : Str) (hs : seg.head? = some ':')
    (hstat : c.nType = NType.nstatic → c.pfx ≠ [] ∧ ':' ∉ c.pfx) :
    ¬(c.nType = NType.nstatic ∧ c.pfx.isPrefixOf seg) := by
  rintro ⟨hst, hp⟩
  rcases hstat hst with ⟨hne, hcol⟩
  refine not_isPrefixOf_of_head_ne c.pfx seg hne ?_ hp
  cases hpf : c.pfx with
  | nil => exact absurd hpf hne
  | cons x xs =>
    simp only [hpf, List.head?_cons, hs]
    intro hx
    rcases Option.some.inj hx with rfl
    exact hcol (by rw [hpf]; simp)

/-- After `node.insert` handles the first prefix-sharing static child, a
search for the inserted path finds the inserted route through that
(replaced) child. -/
lemma handled_search (f r : Nat)
    (ih : ∀ (n : Node) (path : Str) (n' : Node) (pm : PMap),
      InvC n → CleanP path → nodeInsert f n path r = some n' →
      (nodeSearch f n' path pm).1 = some r)
    (s rest : Str) (c c' : Node) (post : List Node) (pm : PMap)
    (hc : InvC c) (hcstatic : c.nType = NType.nstatic)
    (hcpfx : c.pfx ≠ []) (hccolon : ':' ∉ c.pfx)
    (hs_ne : s ≠ []) (hs_slash : '/' ∉ s) (hs_colon : ':' ∉ s)
    (hrest : rest = [] ∨ (rest.head? = some '/' ∧ CleanP rest))
    (hk : longestCommonPfx s c.pfx ≠ 0)
    (hh : handled (fun c q => nodeInsert f c q r) s rest r c c') :
    ∃ res, tryStatic (nodeSearch f) (c' :: post) s rest pm = some res ∧
      res.1 = some r := by
  have hkle_s := lcp_le_left s c.pfx
  have hkle_p := lcp_le_right s c.pfx
  have hrestC : rest ≠ [] → CleanP rest := by
    intro hrne
    rcases hrest with rfl | ⟨_, hcp2⟩
    · exact absurd rfl hrne
    · exact hcp2
  rcases hh with ⟨h1, h2, h3, rfl⟩ | ⟨h1, h2, h3, hins⟩ | ⟨h1, h2, hins⟩ |
    ⟨h1, h2, h3, rfl⟩ | ⟨h1, h2, h3, hins⟩ | ⟨h1, h2, hins⟩
  · -- exact match, no remainder: route written on the child
    have hcond : (c.setRoute r).nType = NType.nstatic ∧
        (c.setRoute r).pfx.isPrefixOf s := by
      refine ⟨by simp [hcstatic], ?_⟩
      simp only [setRoute_pfx]
      exact lcp_full_prefix s c.pfx h1
    refine ⟨_, by simp only [tryStatic]; rw [if_pos hcond], ?_⟩
    rw [if_pos (by simp [← h1, h2]), if_pos h3]
    simp
  · -- exact match, remainder: recurse into the child
    rcases nodeInsert_shape f c rest r c' hins with ⟨hpfx', hnt'⟩
    have hcond : c'.nType = NType.nstatic ∧ c'.pfx.isPrefixOf s := by
      refine ⟨by rw [hnt']; exact hcstatic, ?_⟩
      rw [hpfx']
      exact lcp_full_prefix s c.pfx h1
    refine ⟨_, by simp only [tryStatic]; rw [if_pos hcond], ?_⟩
    rw [if_pos (by rw [hpfx', ← h1, h2]), if_neg h3]
    exact ih c rest c' pm hc (hrestC h3) hins
  · -- segment extends beyond the child's prefix
    rcases nodeInsert_shape f c _ r c' hins with ⟨hpfx', hnt'⟩
    have hcond : c'.nType = NType.nstatic ∧ c'.pfx.isPrefixOf s := by
      refine ⟨by rw [hnt']; exact hcstatic, ?_⟩
      rw [hpfx']
      exact lcp_full_prefix s c.pfx h1
    have hlen : c'.pfx.length = longestCommonPfx s c.pfx := by
      rw [hpfx']; exact h1.symm
    refine ⟨_, by simp only [tryStatic]; rw [if_pos hcond], ?_⟩
    rw [if_neg (by rw [hlen]; exact fun hq => h2 hq.symm), hlen]
    exact ih c _ c' pm hc
      (cleanP_tail s rest _ (by omega) hs_slash hs_colon hrest) hins
  · -- split, exact segment, no remainder
    have hpfx' : ((splitOf c s (longestCommonPfx s c.pfx)).setRoute r).pfx = s := by
      simp only [setRoute_pfx, splitOf, node_pfx, h2]
      exact List.take_length s
    have hcond : ((splitOf c s (longestCommonPfx s c.pfx)).setRoute r).nType
        = NType.nstatic ∧
        ((splitOf c s (longestCommonPfx s c.pfx)).setRoute r).pfx.isPrefixOf s := by
      refine ⟨by simp [splitOf], ?_⟩
      rw [hpfx']
      exact (List.isPrefixOf_iff_prefix).mpr (List.prefix_refl s)
    refine ⟨_, by simp only [tryStatic]; rw [if_pos hcond], ?_⟩
    rw [if_pos (by rw [hpfx']), if_pos h3]
    simp [splitOf]
  · -- split, exact segment, remainder: recurse into the split node
    rcases nodeInsert_shape f _ rest r c' hins with ⟨hpfx', hnt'⟩
    have hpfx2 : c'.pfx = s := by
      rw [hpfx']
      simp only [splitOf, node_pfx, h2]
      exact List.take_length s
    have hcond : c'.nType = NType.nstatic ∧ c'.pfx.isPrefixOf s := by
      refine ⟨by rw [hnt']; simp [splitOf], ?_⟩
      rw [hpfx2]
      exact (List.isPrefixOf_iff_prefix).mpr (List.prefix_refl s)
    refine ⟨_, by simp only [tryStatic]; rw [if_pos hcond], ?_⟩
    rw [if_pos (by rw [hpfx2]), if_neg h3]
    exact ih _ rest c' pm
      (InvC_splitOf c s _ hc hcstatic (by omega) hccolon) (hrestC h3) hins
  · -- split, segment extends beyond the common prefix
    rcases nodeInsert_shape f _ _ r c' hins with ⟨hpfx', hnt'⟩
    have hpfx2 : c'.pfx = s.take (longestCommonPfx s c.pfx) := by
      rw [hpfx']; simp [splitOf]
    have hlen : c'.pfx.length = longestCommonPfx s c.pfx := by
      rw [hpfx2, List.length_take]
      omega
    have hcond : c'.nType = NType.nstatic ∧ c'.pfx.isPrefixOf s := by
      refine ⟨by rw [hnt']; simp [splitOf], ?_⟩
      rw [hpfx2]
      exact take_isPrefixOf s _
    refine ⟨_, by simp only [tryStatic]; rw [if_pos hcond], ?_⟩
    rw [if_neg (by rw [hlen]; exact fun hq => h2 hq.symm), hlen]
    exact ih _ _ c' pm
      (InvC_splitOf c s _ hc hcstatic (by omega) hccolon)
      (cleanP_tail s rest _ (by omega) hs_slash hs_colon hrest) hins

/-- Round trip on clean trees: immediately after a clean pattern is
inserted, searching that very pattern (as a path) finds the inserted
route. -/
lemma insert_search : ∀ (f : Nat) (n : Node) (path : Str) (r : Nat) (n' : Node)
    (pm : PMap),
    InvC n → CleanP path → nodeInsert f n path r = some n' →
    (nodeSearch f n' path pm).1 = some r := by
  intro f
  induction f with
  | zero => intro n path r n' pm _ _ h; simp [nodeInsert] at h
  | succ f ih =>
    intro n path r n' pm hInv hcp h
    simp only [nodeInsert] at h
    split at h
    · rename_i hroot
      rcases Option.some.inj h with rfl
      rw [hroot]
      simp [nodeSearch]
    · rename_i hproot
      rcases cleanP_split path hcp hproot with
        ⟨s, rest, hpath, hseg_eq, hrem_eq, hs_ne, hs_slash, hs_ok, hrest⟩
      rw [hseg_eq, hrem_eq] at h
      have hpne : ¬(path = ['/'] ∨ path = []) := by
        rintro (h1 | h1)
        · exact hproot h1
        · rw [hpath] at h1; simp at h1
      have hrestC : rest ≠ [] → CleanP rest := by
        intro hrne
        rcases hrest with rfl | ⟨_, hcp2⟩
        · exact absurd rfl hrne
        · exact hcp2
      simp only [nodeSearch]
      rw [if_neg hpne, hseg_eq, hrem_eq]
      split at h
      · -- parameter branch of the insertion
        rename_i hscolon
        rcases InvC_inv n hInv with ⟨hne0, hcs0, hpc0⟩
        have hskip : ∀ c ∈ n.children,
            ¬(c.nType = NType.nstatic ∧ c.pfx.isPrefixOf s) := by
          intro c hcmem
          exact no_match_of_colon c s hscolon (hne0 c hcmem)
        cases hnp : n.paramChild with
        | some pc0 =>
          rw [hnp] at h
          split at h
          · rename_i hrnil
            rcases Option.some.inj h with rfl
            rw [setParamChild_children,
              tryStatic_none (nodeSearch f) n.children s rest pm hskip]
            simp [hrnil]
          · rename_i hrne
            rcases Option.map_eq_some'.mp h with ⟨pc', hins, rfl⟩
            rw [setParamChild_children,
              tryStatic_none (nodeSearch f) n.children s rest pm hskip]
            simp only [setParamChild_paramChild, if_neg hrne]
            exact ih pc0 rest r pc' _ (hpc0 pc0 hnp) (hrestC hrne) hins
        | none =>
          rw [hnp] at h
          split at h
          · rename_i hrnil
            rcases Option.some.inj h with rfl
            rw [setParamChild_children,
              tryStatic_none (nodeSearch f) n.children s rest pm hskip]
            simp [hrnil]
          · rename_i hrne
            rcases Option.map_eq_some'.mp h with ⟨pc', hins, rfl⟩
            rw [setParamChild_children,
              tryStatic_none (nodeSearch f) n.children s rest pm hskip]
            simp only [setParamChild_paramChild, if_neg hrne]
            exact ih _ rest r pc' _ (InvC_leaf _ _ _ _) (hrestC hrne) hins
      · -- static branch of the insertion
        rename_i hscolon
        have hs_colon : ':' ∉ s := by
          rcases hs_ok with hhd | hnc
          · exact absurd hhd hscolon
          · exact hnc
        rcases InvC_inv n hInv with ⟨hne0, hcs0, hpc0⟩
        split at h
        · exact absurd h (by simp)
        · rename_i cs' hgo
          rcases Option.some.inj h with rfl
          rcases goChildren_some_char _ n.children _ _ r cs' hgo with
            ⟨pre, c, post, c', hsplit, hcs', hpre, hcstat, hk, hh⟩
          have hcInv : InvC c := hcs0 c (by rw [hsplit]; simp)
          rcases hne0 c (by rw [hsplit]; simp) hcstat with ⟨hcpfx, hccolon⟩
          have hskip : ∀ x ∈ pre,
              ¬(x.nType = NType.nstatic ∧ x.pfx.isPrefixOf s) := by
            intro x hxmem
            refine no_match_of_lcp_zero x s hs_ne
              (fun hxs => (hne0 x (by rw [hsplit]; simp [hxmem]) hxs).1) ?_
            intro hxs
            rcases hpre x hxmem with hx1 | hx2
            · exact absurd hxs hx1
            · exact hx2
          rcases handled_search f r (fun n p n' pm hi hcl hins => ih n p r n' pm hi hcl hins)
              s rest c c' post pm hcInv hcstat hcpfx hccolon hs_ne hs_slash
              hs_colon hrest hk hh with ⟨res, heq, hres⟩
          rw [setChildren_children, hcs', tryStatic_skip _ pre _ s rest pm hskip, heq]
          exact hres
        · rename_i hgo
          have hnone := goChildren_none_char _ n.children _ _ r hgo
          have hskip : ∀ x ∈ n.children,
              ¬(x.nType = NType.nstatic ∧ x.pfx.isPrefixOf s) := by
            intro x hxmem
            exact no_match_of_lcp_zero x s hs_ne
              (fun hxs => (hne0 x hxmem hxs).1) (fun hxs => hnone x hxmem hxs)
          split at h
          · rename_i hrnil
            rcases Option.some.inj h with rfl
            rw [setChildren_children, tryStatic_skip _ n.children _ s rest pm hskip]
            have hcond : ((Node.node NType.nstatic s [] none [] none).setRoute r).nType
                = NType.nstatic ∧
                ((Node.node NType.nstatic s [] none [] none).setRoute r).pfx.isPrefixOf s := by
              refine ⟨by simp, ?_⟩
              simp only [setRoute_pfx, node_pfx]
              exact (List.isPrefixOf_iff_prefix).mpr (List.prefix_refl s)
            simp only [tryStatic]
            rw [if_pos hcond, if_pos (by simp), if_pos hrnil]
            simp
          · rename_i hrne
            rcases Option.map_eq_some'.mp h with ⟨c', hins, rfl⟩
            rcases nodeInsert_shape f _ _ r c' hins with ⟨hpfx', hnt'⟩
            simp only [node_pfx, node_nType] at hpfx' hnt'
            rw [setChildren_children, tryStatic_skip _ n.children _ s rest pm hskip]
            have hcond : c'.nType = NType.nstatic ∧ c'.pfx.isPrefixOf s := by
              refine ⟨hnt', ?_⟩
              rw [hpfx']
              exact (List.isPrefixOf_iff_prefix).mpr (List.prefix_refl s)
            simp only [tryStatic]
            rw [if_pos hcond, if_pos (by rw [hpfx']), if_neg hrne]
            exact ih _ rest r c' pm (InvC_leaf _ _ _ _) (hrestC hrne) hins

lemma treeInsert_clean (n : Node) (p : Str) (r : Nat) (hne : p ≠ [])
    (hhd : p.head? = some '/') :
    treeInsert n p r = nodeInsert (p.length + 1) n p r := by
  simp only [treeInsert]
  rw [if_neg hne, if_pos hhd]

lemma treeSearch_fst (t : Node) (p : Str) (hne : p ≠ []) :
    (treeSearch t p).1 = (nodeSearch (p.length + 1) t p none).1 := by
  simp only [treeSearch]
  rw [if_neg hne]
  cases (nodeSearch (p.length + 1) t p none).1 with
  | none => rfl
  | some r => rfl

/-- Counterexample to claim C7 as stated for every tree: in the tree built
by inserting `/x:ida ↦ 10`, `/x:id ↦ 20`, `/x ↦ 30` (splits leave a static
child with prefix `:id` under `x` holding route 20), inserting the pattern
`/x/:id` twice with routes 1 then 2 and then searching `/x/:id`'s path
returns route 20 — the shadowing static child — not r2 = 2. -/
theorem c7_counterexample :
    searchBuilt [(s2l "/x:ida", 10), (s2l "/x:id", 20), (s2l "/x", 30),
        (s2l "/x/:id", 1), (s2l "/x/:id", 2)] (s2l "/x/:id")
      = some (some 20, none) ∧
    searchBuilt [(s2l "/x:ida", 10), (s2l "/x:id", 20), (s2l "/x", 30),
        (s2l "/x/:id", 1), (s2l "/x/:id", 2)] (s2l "/x/:id")
      ≠ some (some 2, none) := by
  constructor
  · rfl
  · decide

/-- Amended claim C7: last write wins for clean patterns on clean trees.
For every tree satisfying the clean structural invariant (as every tree
built from patterns whose segments are nonempty and either `:name`
parameters or colon-free literals is), inserting the same clean pattern
`p` twice with routes `r1` then `r2` makes a search for `p`'s path return
`r2` — exactly one reachable route for the pattern, bound to the second
registration.  (Patterns with an embedded colon can instead be shadowed
by a static child, see the counterexample.) -/
theorem c7_last_write_wins (t : Node) (p : Str) (r1 r2 : Nat) (t1 t2 : Node)
    (hInv : InvC t) (hcp : CleanP p)
    (h1 : treeInsert t p r1 = some t1) (h2 : treeInsert t1 p r2 = some t2) :
    (treeSearch t2 p).1 = some r2 := by
  rcases cleanP_head p hcp with ⟨hhd, hne⟩
  rw [treeInsert_clean t p r1 hne hhd] at h1
  rw [treeInsert_clean t1 p r2 hne hhd] at h2
  have hInv1 : InvC t1 := nodeInsert_InvC _ t p r1 t1 h1 hInv hcp
  rw [treeSearch_fst t2 p hne]
  exact insert_search (p.length + 1) t1 p r2 t2 none hInv1 hcp h2

/-- Witness for C7 (amended) at the empty tree and the pattern `/a/:id`
with routes 1 then 2. -/
theorem c7_last_write_wins_witness :
    (treeSearch ((treeInsert ((treeInsert emptyRoot (s2l "/a/:id") 1).getD emptyRoot)
      (s2l "/a/:id") 2).getD emptyRoot) (s2l "/a/:id")).1 = some 2 := by
  have hclean : CleanP (s2l "/a/:id") := by
    have he : s2l "/a/:id" = '/' :: ['a'] ++ ['/', ':', 'i', 'd'] := rfl
    rw [he]
    refine CleanP.seg ['a'] ['/', ':', 'i', 'd'] (by decide) (by decide)
      (by right; decide) (by decide) ?_
    have he2 : (['/', ':', 'i', 'd'] : Str) = '/' :: [':', 'i', 'd'] := rfl
    rw [he2]
    exact CleanP.last [':', 'i', 'd'] (by decide) (by decide) (by left; decide)
  exact c7_last_write_wins emptyRoot (s2l "/a/:id") 1 2 _ _
    (InvC_leaf _ _ _ _) hclean (by rfl) (by rfl)

-- The copy-on-write insertion only ever appends to the heap.

lemma alloc_grow (H : Heap) (nd : HNode) : H <+: (alloc H nd).1 :=
  ⟨[nd], rfl⟩

lemma goKidsWC_grow (ins : Heap → Nat → Str → Nat → Heap × Nat) (r : Nat)
    (hins : ∀ (H : Heap) (a : Nat) (q : Str), H <+: (ins H a q r).1) :
    ∀ (cs : List Nat) (H : Heap) (seg rem : Str),
      H <+: (goKidsWC ins H cs seg rem r).1 := by
  intro cs
  induction cs with
  | nil => intro H seg rem; exact List.prefix_refl H
  | cons cA cs ih =>
    intro H seg rem
    simp only [goKidsWC]
    split
    · exact ih H seg rem
    · split
      · exact ih H seg rem
      · split
        · exact ih H seg rem
        · split
          · split
            · split
              · exact alloc_grow H _
              · exact hins H cA rem
            · exact hins H cA _
          · split
            · split
              · exact (alloc_grow H _).trans (alloc_grow _ _)
              · exact ((alloc_grow H _).trans (alloc_grow _ _)).trans (hins _ _ rem)
            · exact ((alloc_grow H _).trans (alloc_grow _ _)).trans (hins _ _ _)

lemma insertWC_grow : ∀ (fuel : Nat) (H : Heap) (a : Nat) (path : Str) (r : Nat),
    H <+: (insertWC fuel H a path r).1 := by
  intro fuel
  induction fuel with
  | zero => intro H a path r; exact List.prefix_refl H
  | succ fuel ih =>
    intro H a path r
    simp only [insertWC]
    split
    · exact List.prefix_refl H
    · split
      · exact alloc_grow H _
      · split
        · split
          · split
            · split
              · exact List.prefix_refl H
              · exact (alloc_grow H _).trans (alloc_grow _ _)
            · exact (ih H _ _ r).trans (alloc_grow _ _)
          · split
            · exact (alloc_grow H _).trans (alloc_grow _ _)
            · exact ((alloc_grow H _).trans (ih _ _ _ r)).trans (alloc_grow _ _)
        · have hgo := goKidsWC_grow (insertWC fuel) r (fun H a q => ih H a q r)
          split
          · exact (hgo _ H _ _).trans (alloc_grow _ _)
          · split
            · exact ((hgo _ H _ _).trans (alloc_grow _ _)).trans (alloc_grow _ _)
            · exact (((hgo _ H _ _).trans (alloc_grow _ _)).trans (ih _ _ _ r)).trans
                (alloc_grow _ _)

lemma tryStaticWC_congr (H K : Heap)
    (go1 go2 : Nat → Str → PMap → Option Nat × PMap) :
    ∀ (cs : List Nat) (seg rem : Str) (pm : PMap),
      (∀ cA ∈ cs, cA < H.length) →
      (∀ cA ∈ cs, ∀ q pm', go1 cA q pm' = go2 cA q pm') →
      tryStaticWC go1 (H ++ K) cs seg rem pm = tryStaticWC go2 H cs seg rem pm := by
  intro cs
  induction cs with
  | nil => intro seg rem pm _ _; rfl
  | cons cA cs ih =>
    intro seg rem pm hlt hgo
    have hlook : (H ++ K)[cA]? = H[cA]? :=
      List.getElem?_append_left (hlt cA (by simp))
    simp only [tryStaticWC]
    rw [hlook]
    have ih' := ih seg rem pm (fun x hx => hlt x (by simp [hx]))
      (fun x hx => hgo x (by simp [hx]))
    split
    · exact ih'
    · split
      · rename_i c hcnd
        congr 1
        split
        · split
          · rfl
          · exact hgo cA (by simp) rem pm
        · exact hgo cA (by simp) _ pm
      · exact ih'

/-- Searching from an address inside a well-formed heap is unaffected by
any extension of the heap: the search reads only cells reachable from
that address, which all lie in the original heap. -/
lemma searchWC_ext (K : Heap) : ∀ (fuel : Nat) (H : Heap) (a : Nat)
    (path : Str) (pm : PMap), wfH H → a < H.length →
    searchWC fuel (H ++ K) a path pm = searchWC fuel H a path pm := by
  intro fuel
  induction fuel with
  | zero => intros; rfl
  | succ fuel ih =>
    intro H a path pm hwf ha
    have hlook : (H ++ K)[a]? = H[a]? := List.getElem?_append_left ha
    cases hnd : H[a]? with
    | none => simp only [searchWC, hlook, hnd]
    | some nd =>
      have hmem : nd ∈ H := by
        have := List.getElem?_eq_some.mp hnd
        rcases this with ⟨hlt2, hEq⟩
        exact hEq ▸ List.getElem_mem hlt2
      rcases hwf nd hmem with ⟨hch, hpc⟩
      simp only [searchWC, hlook, hnd]
      by_cases hp : path = ['/'] ∨ path = []
      · rw [if_pos hp, if_pos hp]
      · rw [if_neg hp, if_neg hp]
        have htry := tryStaticWC_congr H K (searchWC fuel (H ++ K))
          (searchWC fuel H) nd.childrenH
          ((trimSlash path).takeWhile (· ≠ '/'))
          ((trimSlash path).dropWhile (· ≠ '/')) pm hch
          (fun cA hcA q pm' => ih H cA q pm' hwf (hch cA hcA))
        rw [htry]
        cases hres : tryStaticWC (searchWC fuel H) H nd.childrenH
            ((trimSlash path).takeWhile (· ≠ '/'))
            ((trimSlash path).dropWhile (· ≠ '/')) pm with
        | some res => rfl
        | none =>
          cases hpc2 : nd.paramChildH with
          | none => rfl
          | some pcA =>
            have hpA : pcA < H.length := hpc pcA hpc2
            have hlook2 : (H ++ K)[pcA]? = H[pcA]? :=
              List.getElem?_append_left hpA
            simp only [hlook2]
            cases hpcn : H[pcA]? with
            | none => rfl
            | some pc =>
              simp only
              by_cases hrm : (trimSlash path).dropWhile (· ≠ '/') = []
              · rw [if_pos hrm, if_pos hrm]
              · rw [if_neg hrm, if_neg hrm]
                exact ih H pcA _ _ hwf hpA

/-- Claim C1 (copy-on-write isolation, spec-modelled `insertWithCopy`):
deriving an updated tree by inserting a route leaves the old tree fully
intact — every heap cell of the old heap is unchanged (no node reachable
from the old root is mutated in place), and every search against the old
root, for every path and parameter map, returns exactly what it returned
before the insertion. -/
theorem c1_cow_isolation (H : Heap) (rootA : Nat) (p : Str) (r f : Nat)
    (a g : Nat) (q : Str) (pm : PMap)
    (hwf : wfH H) (hroot : rootA < H.length) (ha : a < H.length) :
    ((insertWC f H rootA p r).1)[a]? = H[a]? ∧
    searchWC g (insertWC f H rootA p r).1 rootA q pm
      = searchWC g H rootA q pm := by
  rcases insertWC_grow f H rootA p r with ⟨K, hK⟩
  rw [← hK]
  exact ⟨List.getElem?_append_left ha, searchWC_ext K g H rootA q pm hwf hroot⟩

/-- Witness for C1: in the two-cell heap `cowHeap` (root at address 1,
static child `a ↦ 7` at address 0), inserting `/b` leaves cell 0
untouched and the search for `/a` from the old root unchanged. -/
theorem c1_cow_isolation_witness :
    ((insertWC 4 cowHeap 1 (s2l "/b") 9).1)[0]? = cowHeap[0]? ∧
    searchWC 5 (insertWC 4 cowHeap 1 (s2l "/b") 9).1 1 (s2l "/a") none
      = searchWC 5 cowHeap 1 (s2l "/a") none :=
  c1_cow_isolation cowHeap 1 (s2l "/b") 9 4 0 5 (s2l "/a") none
    (by
      intro nd hnd
      simp only [cowHeap, List.mem_cons, List.not_mem_nil, or_false] at hnd
      rcases hnd with rfl | rfl
      · exact ⟨by intro cA hca; simp at hca, by intro pcA hpca; simp at hpca⟩
      · refine ⟨?_, by intro pcA hpca; simp at hpca⟩
        intro cA hca
        simp only [List.mem_singleton] at hca
        subst hca
        simp [cowHeap])
    (by decide) (by decide)
